import Mathlib

/-!
Verification of the rusty-lisp parser core (src/main.rs) against its
natural-language specification.

The source is a pom-combinator parser over byte slices.  We embed it
shallowly: a parser is a function from an input byte list and a start
position to a result.  pom parsers return either a value together with the
new position or a parse failure; in addition, the source calls
`Result::unwrap` / `Option::unwrap` inside `.map(...)` closures, which on
failure aborts the process with a Rust panic rather than producing a parse
failure.  We therefore use a three-valued result type: `ok`, `fail`
(recoverable parse failure, pom `Err`) and `panic` (Rust panic escaping a
combinator).
-/

set_option maxHeartbeats 1000000

namespace RustyLisp

/-- Input bytes, each in 0..255 (the Rust side is a `&[u8]`). -/
abbrev Bytes := List Nat

/-- Outcome of running one parser: success with a value and the updated
cursor position, recoverable parse failure, or a Rust panic. -/
inductive PResult (α : Type) where
  | ok (val : α) (pos : Nat)
  | fail
  | panic

/-- A pom `Parser<u8, α>`: a function from the full input and a cursor
position to a result.  pom hands every combinator the whole input slice and
a start offset, exactly as modelled here. -/
def ParserM (α : Type) : Type := Bytes → Nat → PResult α

/-- pom `is_a(pred)`: consume one byte satisfying the predicate. -/
def satisfy (p : Nat → Bool) : ParserM Nat := fun input pos =>
  match input[pos]? with
  | some b => if p b then .ok b (pos + 1) else .fail
  | none => .fail

/-- pom `is_a`. -/
def is_a (p : Nat → Bool) : ParserM Nat := satisfy p

/-- pom `one_of(set)`: one byte that is a member of the set. -/
def one_of (cs : Bytes) : ParserM Nat := satisfy (fun b => cs.contains b)

/-- pom `none_of(set)`: one byte that is not a member of the set. -/
def none_of (cs : Bytes) : ParserM Nat := satisfy (fun b => !cs.contains b)

/-- pom `sym(b)`: one byte equal to `b`. -/
def sym (c : Nat) : ParserM Nat := satisfy (fun b => b == c)

/-- pom `.map(f)` with a total closure. -/
def pmap (f : α → β) (p : ParserM α) : ParserM β := fun input pos =>
  match p input pos with
  | .ok a q => .ok (f a) q
  | .fail => .fail
  | .panic => .panic

/-- pom `.map(|x| g(x).unwrap())`: the closure unwraps a fallible
conversion, so a `None`/`Err` from `g` is a Rust panic, not a parse
failure. -/
def pmapU (f : α → Option β) (p : ParserM α) : ParserM β := fun input pos =>
  match p input pos with
  | .ok a q =>
    match f a with
    | some b => .ok b q
    | none => .panic
  | .fail => .fail
  | .panic => .panic

/-- pom `.convert(g)`: a failing conversion becomes a parse failure. -/
def pconvert (f : α → Option β) (p : ParserM α) : ParserM β := fun input pos =>
  match p input pos with
  | .ok a q =>
    match f a with
    | some b => .ok b q
    | none => .fail
  | .fail => .fail
  | .panic => .panic

/-- pom `.discard()`. -/
def pdiscard (p : ParserM α) : ParserM Unit := fun input pos =>
  match p input pos with
  | .ok _ q => .ok () q
  | .fail => .fail
  | .panic => .panic

/-- pom `a * b`: run `a`, then `b` from the new position; keep `b`'s
value. -/
def pseqR (a : ParserM α) (b : ParserM β) : ParserM β := fun input pos =>
  match a input pos with
  | .ok _ q => b input q
  | .fail => .fail
  | .panic => .panic

/-- pom `a - b`: run `a`, then `b`; keep `a`'s value. -/
def pseqL (a : ParserM α) (b : ParserM β) : ParserM α := fun input pos =>
  match a input pos with
  | .ok v q =>
    match b input q with
    | .ok _ r => .ok v r
    | .fail => .fail
    | .panic => .panic
  | .fail => .fail
  | .panic => .panic

/-- pom `a + b`: run both in sequence, keep the pair of values. -/
def pseqPair (a : ParserM α) (b : ParserM β) : ParserM (α × β) := fun input pos =>
  match a input pos with
  | .ok v q =>
    match b input q with
    | .ok w r => .ok (v, w) r
    | .fail => .fail
    | .panic => .panic
  | .fail => .fail
  | .panic => .panic

/-- pom `a | b`: ordered alternation; `b` is tried from the original
position only when `a` returns a parse failure.  A panic inside `a`
unwinds and is not caught. -/
def palt (a : ParserM α) (b : ParserM α) : ParserM α := fun input pos =>
  match a input pos with
  | .ok v q => .ok v q
  | .fail => b input pos
  | .panic => .panic

/-- pom `.collect()`: on success, replace the value by the consumed input
slice. -/
def pcollect (p : ParserM α) : ParserM Bytes := fun input pos =>
  match p input pos with
  | .ok _ q => .ok ((input.drop pos).take (q - pos)) q
  | .fail => .fail
  | .panic => .panic

/-- Loop body of pom `.repeat(range)`: collect items greedily until the
item parser fails.  The fuel argument only ensures totality; `prepeat`
supplies more fuel than the loop can consume, because every item parser
used in this development consumes at least one byte on success (pom itself
would loop forever on a succeeding zero-width item, so the `q ≤ pos`
branch is unreachable in every use below). -/
def repeatCore (p : ParserM α) : Nat → Bytes → Nat → PResult (List α)
  | 0, _, pos => .ok [] pos
  | fuel + 1, input, pos =>
    match p input pos with
    | .panic => .panic
    | .fail => .ok [] pos
    | .ok a q =>
      if q ≤ pos then .ok [a] q
      else
        match repeatCore p fuel input q with
        | .ok vs r => .ok (a :: vs) r
        | .fail => .fail
        | .panic => .panic

/-- pom `.repeat(min..)`: greedy repetition, failing (without consuming)
when fewer than `min` items matched.  The source only uses `0..` and
`1..`. -/
def prepeat (minCount : Nat) (p : ParserM α) : ParserM (List α) := fun input pos =>
  match repeatCore p (input.length + 1 - pos) input pos with
  | .ok vs q => if minCount ≤ vs.length then .ok vs q else .fail
  | .fail => .fail
  | .panic => .panic

/-- Loop body of pom `list(item, sep)`: repeatedly parse a separator then
an item; when either fails, stop, restoring the position saved before the
separator.  Fuel as in `repeatCore`. -/
def listCore (item : ParserM α) (sep : ParserM β) : Nat → Bytes → Nat → PResult (List α)
  | 0, _, pos => .ok [] pos
  | fuel + 1, input, pos =>
    match sep input pos with
    | .panic => .panic
    | .fail => .ok [] pos
    | .ok _ q =>
      match item input q with
      | .panic => .panic
      | .fail => .ok [] pos
      | .ok a r =>
        if r ≤ pos then .ok [a] r
        else
          match listCore item sep fuel input r with
          | .ok vs s => .ok (a :: vs) s
          | .fail => .fail
          | .panic => .panic

/-- pom `list(item, sep)`: `item (sep item)*`, zero items allowed; never a
parse failure. -/
def plist (item : ParserM α) (sep : ParserM β) : ParserM (List α) := fun input pos =>
  match item input pos with
  | .panic => .panic
  | .fail => .ok [] pos
  | .ok a q =>
    if q ≤ pos then .ok [a] q
    else
      match listCore item sep (input.length + 1 - q) input q with
      | .ok vs r => .ok (a :: vs) r
      | .fail => .fail
      | .panic => .panic

/-- pom `call(p)`: lazy reference, semantically the parser itself. -/
def call (p : ParserM α) : ParserM α := p

/-- pom `char_class::alpha`: ASCII `A`-`Z` or `a`-`z`. -/
def alpha (b : Nat) : Bool := (65 ≤ b && b ≤ 90) || (97 ≤ b && b ≤ 122)

/-- Byte values of `b"0123456789"`. -/
def digitChars : Bytes := [48, 49, 50, 51, 52, 53, 54, 55, 56, 57]

/-- Byte values of the source's symbol set: `!` `#` `$` `%` `&` `|` `*`
`+` `-` `/` `:` `<` `=` `>` `?` `@` `^` `_` `~`. -/
def symbolChars : Bytes :=
  [33, 35, 36, 37, 38, 124, 42, 43, 45, 47, 58, 60, 61, 62, 63, 64, 94, 95, 126]

/-- Byte values of `b"01"`. -/
def binChars : Bytes := [48, 49]

/-- Byte values of `b"01234567"`. -/
def octChars : Bytes := [48, 49, 50, 51, 52, 53, 54, 55]

/-- Byte values of `b"0123456789abcdefABCDEF"`. -/
def hexChars : Bytes :=
  [48, 49, 50, 51, 52, 53, 54, 55, 56, 57,
   97, 98, 99, 100, 101, 102, 65, 66, 67, 68, 69, 70]

/-- Byte values of `b" \t\r\n"`. -/
def wsChars : Bytes := [32, 9, 13, 10]

/-- One transition of the standard UTF-8 validation automaton.  A state
`(k, lo, hi)` means: `k` continuation bytes are still required, and the
next byte must lie in `lo..hi` (after the first continuation byte the
range is always `128..191`).  `k = 0` is the sequence boundary.  From the
boundary, an ASCII byte stays at the boundary; lead bytes `C2..DF`,
`E0..EF` and `F0..F4` open 2-, 3- and 4-byte sequences with the standard
second-byte restrictions (`E0`: `A0..BF`, `ED`: `80..9F` excluding
surrogates, `F0`: `90..BF`, `F4`: `80..8F` capping at `U+10FFFF`); bytes
`80..C1` and `F5..FF` are rejected. -/
def utf8Step : Nat × Nat × Nat → Nat → Option (Nat × Nat × Nat)
  | (0, _, _), b =>
    if b < 128 then some (0, 0, 0)
    else if b < 194 then none
    else if b < 224 then some (1, 128, 191)
    else if b < 240 then
      some (2, (if b = 224 then 160 else 128), (if b = 237 then 159 else 191))
    else if b < 245 then
      some (3, (if b = 240 then 144 else 128), (if b = 244 then 143 else 191))
    else none
  | (k + 1, lo, hi), b =>
    if lo ≤ b && b ≤ hi then some (k, 128, 191) else none

/-- Run of the UTF-8 automaton; accepting iff the input ends at a sequence
boundary. -/
def utf8Fold : Nat × Nat × Nat → Bytes → Bool
  | st, [] => st.1 == 0
  | st, b :: rest =>
    match utf8Step st b with
    | some st2 => utf8Fold st2 rest
    | none => false

/-- UTF-8 validity of a byte sequence, as checked by Rust
`String::from_utf8`. -/
def validUtf8 (bs : Bytes) : Bool := utf8Fold (0, 0, 0) bs

/-- Numeric value of one ASCII digit byte for `i64::from_str_radix`:
`0`-`9`, `a`-`z`, `A`-`Z`; `none` for any other byte. -/
def digitVal (c : Nat) : Option Nat :=
  if 48 ≤ c && c ≤ 57 then some (c - 48)
  else if 97 ≤ c && c ≤ 122 then some (c - 87)
  else if 65 ≤ c && c ≤ 90 then some (c - 55)
  else none

/-- Total companion of `digitVal`, used only to state values of strings
already known to consist of valid digits. -/
def digitNat (c : Nat) : Nat := (digitVal c).getD 0

/-- `i64::MAX` = 2^63 - 1. -/
def i64Max : Nat := 2 ^ 63 - 1

/-- Accumulator loop of `i64::from_str_radix` on a digit string: checked
multiply-and-add, failing as soon as the accumulator would exceed
`i64::MAX` (the Rust implementation uses `checked_mul` / `checked_add`). -/
def fromStrRadixAux (radix : Nat) : Bytes → Nat → Option Nat
  | [], acc => some acc
  | c :: cs, acc =>
    match digitVal c with
    | none => none
    | some d =>
      if d < radix then
        if acc * radix + d ≤ i64Max then fromStrRadixAux radix cs (acc * radix + d)
        else none
      else none

/-- `i64::from_str_radix(src, radix)` restricted to unsigned digit
strings.  Every call site in the source passes a string drawn from a
digit character class, so the leading `+`/`-` sign handling of the Rust
function is never exercised and is omitted.  Empty input is an error, any
invalid digit is an error, and exceeding `i64::MAX` is an error. -/
def from_str_radix (src : Bytes) (radix : Nat) : Option Int :=
  if src = [] then none else (fromStrRadixAux radix src 0).map Int.ofNat

/-- Mathematical base-`r` value of a digit string (for stating results). -/
def baseVal (r : Nat) (ds : Bytes) : Nat := ds.foldl (fun acc c => acc * r + digitNat c) 0

/-- ASCII lowercasing of a byte string; models the effect of
`str::to_lowercase` on the ASCII-only strings that reach it here. -/
def toLowerByte (b : Nat) : Nat := if 65 ≤ b && b ≤ 90 then b + 32 else b

/-- Bytewise ASCII lowercasing. -/
def toLowerBytes (bs : Bytes) : Bytes := bs.map toLowerByte

/-- The source's `LispVal` AST.  Rust `String` payloads are represented by
their UTF-8 byte content (a Rust `String` is exactly a valid-UTF-8 byte
vector). -/
inductive LispVal where
  | Atom (text : Bytes)
  | List (elems : List LispVal)
  | DottedList (elems : List LispVal) (tail : LispVal)
  | Number (n : Int)
  | String (text : Bytes)
  | Bool (b : Bool)

/-- `letter()`: `is_a(alpha)`. -/
def letter : ParserM Nat := is_a (fun c => alpha c)

/-- `digit()`: `one_of(b"0123456789")`. -/
def digit : ParserM Nat := one_of digitChars

/-- `symbol(b: ())`: `one_of` over the symbol character set (the source
takes and ignores a unit argument). -/
def symbol (b : Unit) : ParserM Nat := one_of symbolChars

/-- `spaces()`: zero or more `' '` bytes, discarded. -/
def spaces : ParserM Unit := pdiscard (prepeat 0 (one_of [32]))

/-- `string()`: `'"'`, then zero or more of (any byte except `\` and `"`,
or the escape `\"` yielding a literal `"`), then `'"'`; the collected
content bytes go through `String::from_utf8` via `.convert`, so invalid
UTF-8 is a parse failure. -/
def string : ParserM LispVal :=
  let special_char := sym 34
  let escaped_seq := pseqR (sym 92) special_char
  let string_matcher :=
    pseqL (pseqR (one_of [34]) (prepeat 0 (palt (none_of [92, 34]) escaped_seq)))
      (pcollect (one_of [34]))
  pmap (fun s => LispVal.String s)
    (pconvert (fun p => if validUtf8 p then some p else none) string_matcher)

/-- `atom()`: a letter-or-symbol byte followed by zero or more
letter/digit/symbol bytes, collected; the tokens `#t`/`#f` become
booleans, anything else an `Atom` via `String::from_utf8(..).unwrap()`
(a failing conversion would panic). -/
def atom : ParserM LispVal :=
  let first_matcher := palt letter (symbol ())
  let rest_matcher := prepeat 0 (palt letter (palt digit (symbol ())))
  pmapU
    (fun matched =>
      if matched = [35, 116] then some (LispVal.Bool true)
      else if matched = [35, 102] then some (LispVal.Bool false)
      else if validUtf8 matched then some (LispVal.Atom matched) else none)
    (pcollect (pseqPair first_matcher rest_matcher))

/-- `decimal_number()`: one or more decimal digits; the matched slice goes
through `String::from_utf8(..).unwrap()` and
`i64::from_str_radix(.., 10).unwrap()` inside `.map`, so a conversion
failure (numeric overflow) is a panic, not a parse failure. -/
def decimal_number : ParserM LispVal :=
  pmapU
    (fun parsed =>
      if validUtf8 parsed then (from_str_radix parsed 10).map (fun n => LispVal.Number n)
      else none)
    (pcollect (prepeat 1 digit))

/-- `binary_number()`: `#b` then one or more of `01`; the collected slice
includes the prefix, which `&parsed[2..]` strips
(`String::from_utf8_lossy` is the identity on these all-ASCII slices);
`from_str_radix(.., 2).unwrap()` panics on overflow. -/
def binary_number : ParserM LispVal :=
  pmapU
    (fun parsed => (from_str_radix (parsed.drop 2) 2).map (fun n => LispVal.Number n))
    (pcollect (pseqR (pdiscard (pseqR (sym 35) (sym 98))) (prepeat 1 (one_of binChars))))

/-- `octal_number()`: `#o` then one or more of `0..7`, as for binary. -/
def octal_number : ParserM LispVal :=
  pmapU
    (fun parsed => (from_str_radix (parsed.drop 2) 8).map (fun n => LispVal.Number n))
    (pcollect (pseqR (pdiscard (pseqR (sym 35) (sym 111))) (prepeat 1 (one_of octChars))))

/-- `hex_number()`: `#x` then one or more hex digits (both cases).  The
source calls `as_string.to_lowercase()` and discards the result, so the
conversion below runs on the original, un-normalized digits. -/
def hex_number : ParserM LispVal :=
  pmapU
    (fun parsed =>
      let as_string := parsed.drop 2
      (from_str_radix as_string 16).map (fun n => LispVal.Number n))
    (pcollect (pseqR (pdiscard (pseqR (sym 35) (sym 120))) (prepeat 1 (one_of hexChars))))

/-- `number()`: ordered alternation `octal | binary | hex | decimal`. -/
def number : ParserM LispVal :=
  palt octal_number (palt binary_number (palt hex_number decimal_number))

/-- `whitespace()`: zero or more of space, tab, CR, LF, discarded. -/
def whitespace : ParserM Unit := pdiscard (prepeat 0 (one_of wsChars))

/-- `parse_expr()`: `number | atom | string`. -/
def parse_expr : ParserM LispVal := palt number (palt atom string)

/-- `parse_list()`: `'('`, then `list(call(parse_expr), whitespace())`,
then `')'`. -/
def parse_list : ParserM (List LispVal) :=
  pseqL (pseqR (sym 40) (plist (call parse_expr) whitespace)) (sym 41)

/-- `read_expr(input)`: run `parse_expr` at position 0; pom's `parse`
keeps only the value and ignores the final position (trailing input is not
rejected).  The `.unwrap()` turns a failure into a fatal abort, modelled
as `none` (a panic escaping the parser also aborts). -/
def read_expr (input : Bytes) : Option LispVal :=
  match parse_expr input 0 with
  | .ok v _ => some v
  | .fail => none
  | .panic => none

/-- `read_list(input)`: run `parse_list` at position 0 and wrap the
element vector in `LispVal::List`; failure aborts as in `read_expr`. -/
def read_list (input : Bytes) : Option LispVal :=
  match parse_list input 0 with
  | .ok vs _ => some (LispVal.List vs)
  | .fail => none
  | .panic => none

/-- Spec-side variant of `hex_number` for the refinement comparison in C8:
identical except that the lowercased copy of the digit string is actually
used for the radix conversion, i.e. the normalization result is not
discarded. -/
def hex_number_with_normalization : ParserM LispVal :=
  pmapU
    (fun parsed =>
      let as_string := toLowerBytes (parsed.drop 2)
      (from_str_radix as_string 16).map (fun n => LispVal.Number n))
    (pcollect (pseqR (pdiscard (pseqR (sym 35) (sym 120))) (prepeat 1 (one_of hexChars))))

mutual

/-- True iff a value contains no `DottedList` node at any depth. -/
def noDotted : LispVal → Bool
  | .Atom _ => true
  | .List vs => noDottedList vs
  | .DottedList _ _ => false
  | .Number _ => true
  | .String _ => true
  | .Bool _ => true

/-- `noDotted` on every element of a list. -/
def noDottedList : List LispVal → Bool
  | [] => true
  | v :: vs => noDotted v && noDottedList vs

end

/-- Encoding relation for string-literal content: `StrEnc e o` holds when
the byte sequence `e` is what appears between the quotes in the source
text and `o` is the decoded content (each plain byte kept, each `\"` pair
decoded to a single `"`). -/
inductive StrEnc : Bytes → Bytes → Prop where
  | nil : StrEnc [] []
  | plain (b : Nat) (e o : Bytes) (h92 : b ≠ 92) (h34 : b ≠ 34) :
      StrEnc e o → StrEnc (b :: e) (b :: o)
  | esc (e o : Bytes) : StrEnc e o → StrEnc (92 :: 34 :: e) (34 :: o)

/-- The atom grammar's first-byte class. -/
def atomFirst (b : Nat) : Bool := alpha b || symbolChars.contains b

/-- The atom grammar's continuation-byte class. -/
def atomRest (b : Nat) : Bool := alpha b || (digitChars.contains b || symbolChars.contains b)

/-- A byte at which `parse_expr` can start: a decimal digit, an ASCII
letter, a symbol-class byte (this includes `#`, the radix-literal lead
byte), or `"`. -/
def isExprStart (b : Nat) : Bool :=
  digitChars.contains b || (alpha b || (symbolChars.contains b || b == 34))

/-- Single-space join of a token list: `joinRest [d1, d2]` is
`" d1 d2"`. -/
def joinRest (ds : List Bytes) : Bytes := ds.foldr (fun d acc => 32 :: (d ++ acc)) []

/-- Single-space join: `joinToks [d0, d1]` is `"d0 d1"`. -/
def joinToks : List Bytes → Bytes
  | [] => []
  | d :: ds => d ++ joinRest ds

/-! ### Basic lemmas about the combinator layer -/

theorem contains_iff {l : Bytes} {b : Nat} : l.contains b = true ↔ b ∈ l := by
  simpa [List.contains] using List.elem_iff

theorem getElem?_append_start {pre l : Bytes} : (pre ++ l)[pre.length]? = l[0]? := by
  simpa using List.getElem?_append_right (le_refl pre.length)

theorem satisfy_at {p : Nat → Bool} {pre l : Bytes} :
    satisfy p (pre ++ l) pre.length =
      match l[0]? with
      | some b => if p b then .ok b (pre.length + 1) else .fail
      | none => .fail := by
  simp only [satisfy, getElem?_append_start]

theorem slice_middle {pre s post : Bytes} :
    (((pre ++ (s ++ post)).drop pre.length).take s.length) = s := by
  rw [List.drop_left pre (s ++ post)]
  exact List.take_left s post

/-- A `satisfy`-based parser can only return `ok` or `fail`. -/
theorem satisfy_no_panic {p : Nat → Bool} {input : Bytes} {pos : Nat} :
    satisfy p input pos ≠ .panic := by
  unfold satisfy
  cases input[pos]? with
  | none => simp
  | some b =>
    by_cases h : p b <;> simp [h]

/-- Alternation of two single-byte matchers is a single-byte matcher for
the disjunction of their predicates. -/
theorem palt_satisfy {p q : Nat → Bool} :
    palt (satisfy p) (satisfy q) = satisfy (fun b => p b || q b) := by
  funext input pos
  unfold palt satisfy
  cases input[pos]? with
  | none => rfl
  | some b =>
    by_cases hp : p b <;> by_cases hq : q b <;> simp [hp, hq]

theorem char_parsers_as_satisfy :
    letter = satisfy alpha ∧
      digit = satisfy (fun b => digitChars.contains b) ∧
      symbol () = satisfy (fun b => symbolChars.contains b) := by
  refine ⟨?_, rfl, rfl⟩
  rfl

theorem atom_first_matcher : palt letter (symbol ()) = satisfy atomFirst := by
  show palt (satisfy fun c => alpha c) (satisfy fun b => symbolChars.contains b) = _
  rw [palt_satisfy]
  rfl

theorem atom_rest_matcher :
    palt letter (palt digit (symbol ())) = satisfy atomRest := by
  show palt (satisfy fun c => alpha c)
      (palt (satisfy fun b => digitChars.contains b)
        (satisfy fun b => symbolChars.contains b)) = _
  rw [palt_satisfy, palt_satisfy]
  rfl

/-! ### The greedy repetition of a single-byte matcher -/

/-- Running the repeat loop of a single-byte matcher from the boundary of
`pre` against `s ++ post`, where every byte of `s` matches and the first
byte of `post` (if any) does not: the loop consumes exactly `s`. -/
theorem repeatCore_satisfy {p : Nat → Bool} {s : Bytes}
    (hs : ∀ b ∈ s, p b = true) :
    ∀ (pre post : Bytes) (fuel : Nat), s.length + 1 ≤ fuel →
      (match post[0]? with | none => True | some b => p b = false) →
      repeatCore (satisfy p) fuel (pre ++ (s ++ post)) pre.length =
        .ok s (pre.length + s.length) := by
  induction s with
  | nil =>
    intro pre post fuel hfuel hpost
    match fuel, hfuel with
    | fuel + 1, _ =>
      simp only [repeatCore, List.nil_append]
      rw [satisfy_at]
      cases hp : post[0]? with
      | none => simp
      | some b =>
        rw [hp] at hpost
        simp [hpost]
  | cons a s ih =>
    intro pre post fuel hfuel hpost
    match fuel, hfuel with
    | fuel + 1, hfuel =>
      have ha : p a = true := hs a (by simp)
      simp only [repeatCore]
      rw [show pre ++ ((a :: s) ++ post) = pre ++ ([a] ++ (s ++ post)) by simp]
      rw [satisfy_at]
      simp only [List.singleton_append, List.getElem?_cons_zero, ha, if_true]
      have hlt : ¬ (pre.length + 1 ≤ pre.length) := by omega
      rw [if_neg hlt]
      have hre : pre ++ a :: (s ++ post) = (pre ++ [a]) ++ (s ++ post) := by simp
      have hlen : pre.length + 1 = (pre ++ [a]).length := by simp
      rw [hre, hlen,
        ih (fun b hb => hs b (by simp [hb])) (pre ++ [a]) post fuel (by
          simp only [List.length_cons] at hfuel
          omega) hpost]
      have harith : (pre ++ [a]).length + s.length = pre.length + (a :: s).length := by
        simp only [List.length_append, List.length_cons, List.length_nil]
        omega
      rw [harith]

/-- `prepeat` on a maximal run: consumes the run, returns it when the
minimum is met. -/
theorem prepeat_satisfy {p : Nat → Bool} {s : Bytes} {minCount : Nat}
    (hs : ∀ b ∈ s, p b = true) (hmin : minCount ≤ s.length)
    (pre post : Bytes)
    (hpost : match post[0]? with | none => True | some b => p b = false) :
    prepeat minCount (satisfy p) (pre ++ (s ++ post)) pre.length =
      .ok s (pre.length + s.length) := by
  unfold prepeat
  have hfuel : s.length + 1 ≤ (pre ++ (s ++ post)).length + 1 - pre.length := by
    simp
    omega
  rw [repeatCore_satisfy hs pre post _ hfuel hpost]
  simp [hmin]

/-! ### Soundness of the repeat loop, and panic-freedom of the pieces -/

theorem repeatCore_no_panic {α : Type} {p : ParserM α}
    (hp : ∀ i j, p i j ≠ .panic) :
    ∀ (fuel : Nat) (input : Bytes) (pos : Nat),
      repeatCore p fuel input pos ≠ .panic := by
  intro fuel
  induction fuel with
  | zero => intro input pos; simp [repeatCore]
  | succ fuel ih =>
    intro input pos
    simp only [repeatCore]
    cases hr : p input pos with
    | panic => exact absurd hr (hp input pos)
    | fail => simp
    | ok a q =>
      by_cases hq : q ≤ pos
      · simp [hq]
      · simp only [hq, if_false]
        cases hrec : repeatCore p fuel input q with
        | ok vs r => simp
        | fail => simp
        | panic => exact absurd hrec (ih input q)

theorem prepeat_no_panic {α : Type} {p : ParserM α}
    (hp : ∀ i j, p i j ≠ .panic) (minCount : Nat) (input : Bytes) (pos : Nat) :
    prepeat minCount p input pos ≠ .panic := by
  unfold prepeat
  cases hr : repeatCore p (input.length + 1 - pos) input pos with
  | ok vs q => by_cases h : minCount ≤ vs.length <;> simp [h]
  | fail => simp
  | panic => exact absurd hr (repeatCore_no_panic hp _ input pos)

/-- Inversion for a successful single-byte match. -/
theorem satisfy_ok_inv {p : Nat → Bool} {input : Bytes} {pos a q : Nat}
    (h : satisfy p input pos = .ok a q) :
    input[pos]? = some a ∧ p a = true ∧ q = pos + 1 := by
  unfold satisfy at h
  cases hg : input[pos]? with
  | none => rw [hg] at h; cases h
  | some b =>
    rw [hg] at h
    simp only [] at h
    by_cases hb : p b
    · rw [if_pos hb] at h
      cases h
      exact ⟨rfl, hb, rfl⟩
    · rw [if_neg hb] at h
      cases h

/-- Whatever the repeat loop of a single-byte matcher accepted is exactly
the consumed slice, and every consumed byte satisfies the predicate. -/
theorem repeatCore_satisfy_sound {p : Nat → Bool} :
    ∀ (fuel : Nat) (input : Bytes) (pos : Nat) (items : List Nat) (q : Nat),
      repeatCore (satisfy p) fuel input pos = .ok items q →
      q = pos + items.length ∧ items = (input.drop pos).take items.length ∧
        ∀ b ∈ items, p b = true := by
  intro fuel
  induction fuel with
  | zero =>
    intro input pos items q h
    simp only [repeatCore] at h
    cases h
    simp
  | succ fuel ih =>
    intro input pos items q h
    simp only [repeatCore] at h
    cases hsat : satisfy p input pos with
    | panic => exact absurd hsat satisfy_no_panic
    | fail =>
      rw [hsat] at h
      cases h
      simp
    | ok a q1 =>
      rw [hsat] at h
      simp only [] at h
      obtain ⟨hget, hpa, hq1⟩ := satisfy_ok_inv hsat
      subst hq1
      have hnotle : ¬ (pos + 1 ≤ pos) := by omega
      rw [if_neg hnotle] at h
      cases hrec : repeatCore (satisfy p) fuel input (pos + 1) with
      | panic => rw [hrec] at h; cases h
      | fail => rw [hrec] at h; cases h
      | ok vs r =>
        rw [hrec] at h
        cases h
        obtain ⟨hr, hvs, hall⟩ := ih input (pos + 1) _ _ hrec
        have hposlt : pos < input.length := by
          by_contra hc
          rw [List.getElem?_eq_none (by omega)] at hget
          cases hget
        constructor
        · simp only [List.length_cons]
          omega
        constructor
        · rw [List.drop_eq_getElem_cons hposlt]
          simp only [List.length_cons, List.take_succ_cons]
          rw [← hvs]
          have : input[pos] = a := by
            have := List.getElem?_eq_getElem hposlt
            rw [this] at hget
            exact Option.some.inj hget
          rw [this]
        · intro b hb
          rcases List.mem_cons.mp hb with rfl | hmem
          · exact hpa
          · exact hall b hmem

theorem prepeat_satisfy_sound {p : Nat → Bool} {minCount : Nat}
    {input : Bytes} {pos : Nat} {items : List Nat} {q : Nat}
    (h : prepeat minCount (satisfy p) input pos = .ok items q) :
    q = pos + items.length ∧ items = (input.drop pos).take items.length ∧
      ∀ b ∈ items, p b = true := by
  unfold prepeat at h
  cases hr : repeatCore (satisfy p) (input.length + 1 - pos) input pos with
  | ok vs r =>
    rw [hr] at h
    simp only [] at h
    by_cases hm : minCount ≤ vs.length
    · rw [if_pos hm] at h
      cases h
      exact repeatCore_satisfy_sound _ input pos items q hr
    · rw [if_neg hm] at h; cases h
  | fail => rw [hr] at h; cases h
  | panic => rw [hr] at h; cases h

/-! ### `i64::from_str_radix` on valid digit strings -/

theorem foldl_radix_mono {r : Nat} (hr : 1 ≤ r) :
    ∀ (ds : Bytes) (acc : Nat),
      acc ≤ ds.foldl (fun a c => a * r + digitNat c) acc := by
  intro ds
  induction ds with
  | nil => intro acc; simp
  | cons c cs ih =>
    intro acc
    simp only [List.foldl_cons]
    calc acc ≤ acc * r + digitNat c := by
          have : acc * 1 ≤ acc * r := Nat.mul_le_mul_left acc hr
          omega
      _ ≤ _ := ih _

theorem fromStrRadixAux_some {r : Nat} (hr : 1 ≤ r) :
    ∀ (ds : Bytes) (acc : Nat),
      (∀ c ∈ ds, ∃ v, digitVal c = some v ∧ v < r) →
      ds.foldl (fun a c => a * r + digitNat c) acc ≤ i64Max →
      fromStrRadixAux r ds acc =
        some (ds.foldl (fun a c => a * r + digitNat c) acc) := by
  intro ds
  induction ds with
  | nil => intro acc _ _; simp [fromStrRadixAux]
  | cons c cs ih =>
    intro acc hdig hle
    obtain ⟨v, hv, hvr⟩ := hdig c (by simp)
    have hnat : digitNat c = v := by simp [digitNat, hv]
    simp only [List.foldl_cons] at hle ⊢
    rw [hnat] at hle ⊢
    have hstep : acc * r + v ≤ i64Max :=
      le_trans (foldl_radix_mono hr cs (acc * r + v)) hle
    simp only [fromStrRadixAux, hv, hvr, if_true, hstep, if_pos]
    exact ih _ (fun x hx => hdig x (by simp [hx])) hle

theorem fromStrRadixAux_overflow {r : Nat} (hr : 1 ≤ r) :
    ∀ (ds : Bytes) (acc : Nat),
      (∀ c ∈ ds, ∃ v, digitVal c = some v ∧ v < r) →
      acc ≤ i64Max →
      i64Max < ds.foldl (fun a c => a * r + digitNat c) acc →
      fromStrRadixAux r ds acc = none := by
  intro ds
  induction ds with
  | nil =>
    intro acc _ hacc hgt
    simp only [List.foldl_nil] at hgt
    omega
  | cons c cs ih =>
    intro acc hdig hacc hgt
    obtain ⟨v, hv, hvr⟩ := hdig c (by simp)
    have hnat : digitNat c = v := by simp [digitNat, hv]
    simp only [List.foldl_cons, hnat] at hgt
    by_cases hstep : acc * r + v ≤ i64Max
    · simp only [fromStrRadixAux, hv, hvr, if_true, hstep, if_pos]
      exact ih _ (fun x hx => hdig x (by simp [hx])) hstep hgt
    · simp [fromStrRadixAux, hv, hvr, hstep]

theorem from_str_radix_some {r : Nat} (hr : 1 ≤ r) {ds : Bytes}
    (hne : ds ≠ [])
    (hdig : ∀ c ∈ ds, ∃ v, digitVal c = some v ∧ v < r)
    (hle : baseVal r ds ≤ i64Max) :
    from_str_radix ds r = some (Int.ofNat (baseVal r ds)) := by
  unfold from_str_radix baseVal at *
  rw [if_neg hne, fromStrRadixAux_some hr ds 0 hdig hle]
  rfl

theorem from_str_radix_overflow {r : Nat} (hr : 1 ≤ r) {ds : Bytes}
    (hdig : ∀ c ∈ ds, ∃ v, digitVal c = some v ∧ v < r)
    (hgt : i64Max < baseVal r ds) :
    from_str_radix ds r = none := by
  unfold from_str_radix baseVal at *
  by_cases hne : ds = []
  · rw [if_pos hne]
  · rw [if_neg hne, fromStrRadixAux_overflow hr ds 0 hdig (by simp [i64Max]) hgt]
    rfl

/-! ### Facts about the byte classes -/

theorem digitChars_facts {b : Nat} (h : b ∈ digitChars) :
    digitVal b = some (b - 48) ∧ b - 48 < 10 ∧ b < 128 ∧
      alpha b = false ∧ symbolChars.contains b = false ∧ b ≠ 34 ∧ b ≠ 35 ∧
      wsChars.contains b = false ∧ b ≠ 40 ∧ b ≠ 41 := by
  simp only [digitChars, List.mem_cons, List.not_mem_nil, or_false] at h
  rcases h with rfl | rfl | rfl | rfl | rfl | rfl | rfl | rfl | rfl | rfl <;>
    exact ⟨rfl, by decide, by decide, by decide, by decide,
      by decide, by decide, by decide, by decide, by decide⟩

theorem binChars_facts {b : Nat} (h : b ∈ binChars) :
    (∃ v, digitVal b = some v ∧ v < 2) ∧ b ∈ digitChars := by
  simp only [binChars, List.mem_cons, List.not_mem_nil, or_false] at h
  rcases h with rfl | rfl <;> exact ⟨⟨_, rfl, by decide⟩, by decide⟩

theorem octChars_facts {b : Nat} (h : b ∈ octChars) :
    (∃ v, digitVal b = some v ∧ v < 8) ∧ b ∈ digitChars := by
  simp only [octChars, List.mem_cons, List.not_mem_nil, or_false] at h
  rcases h with rfl | rfl | rfl | rfl | rfl | rfl | rfl | rfl <;>
    exact ⟨⟨_, rfl, by decide⟩, by decide⟩

theorem hexChars_facts {b : Nat} (h : b ∈ hexChars) :
    (∃ v, digitVal b = some v ∧ v < 16) ∧ b < 128 ∧
      wsChars.contains b = false := by
  simp only [hexChars, List.mem_cons, List.not_mem_nil, or_false] at h
  rcases h with rfl | rfl | rfl | rfl | rfl | rfl | rfl | rfl | rfl | rfl | rfl |
    rfl | rfl | rfl | rfl | rfl | rfl | rfl | rfl | rfl | rfl | rfl <;>
    exact ⟨⟨_, rfl, by decide⟩, by decide, by decide⟩

theorem symbolChars_facts {b : Nat} (h : b ∈ symbolChars) :
    b < 128 ∧ b ≠ 34 ∧ b ≠ 40 ∧ b ≠ 41 := by
  simp only [symbolChars, List.mem_cons, List.not_mem_nil, or_false] at h
  rcases h with rfl | rfl | rfl | rfl | rfl | rfl | rfl | rfl | rfl | rfl | rfl |
    rfl | rfl | rfl | rfl | rfl | rfl | rfl | rfl <;>
    exact ⟨by decide, by decide, by decide, by decide⟩

theorem alpha_facts {b : Nat} (h : alpha b = true) :
    b < 128 ∧ b ≠ 34 ∧ b ≠ 35 ∧ b ∉ digitChars := by
  unfold alpha at h
  simp only [Bool.or_eq_true, Bool.and_eq_true, decide_eq_true_eq] at h
  refine ⟨by omega, by omega, by omega, ?_⟩
  intro hmem
  simp only [digitChars, List.mem_cons, List.not_mem_nil, or_false] at hmem
  rcases hmem with rfl | rfl | rfl | rfl | rfl | rfl | rfl | rfl | rfl | rfl <;> omega

theorem atomFirst_ascii {b : Nat} (h : atomFirst b = true) : b < 128 := by
  unfold atomFirst at h
  rcases Bool.or_eq_true_iff.mp h with ha | hs
  · exact (alpha_facts ha).1
  · exact (symbolChars_facts (contains_iff.mp hs)).1

theorem atomRest_ascii {b : Nat} (h : atomRest b = true) : b < 128 := by
  unfold atomRest at h
  rcases Bool.or_eq_true_iff.mp h with ha | h2
  · exact (alpha_facts ha).1
  · rcases Bool.or_eq_true_iff.mp h2 with hd | hs
    · exact (digitChars_facts (contains_iff.mp hd)).2.2.1
    · exact (symbolChars_facts (contains_iff.mp hs)).1

theorem validUtf8_cons_ascii {b : Nat} {rest : Bytes} (hb : b < 128) :
    validUtf8 (b :: rest) = validUtf8 rest := by
  unfold validUtf8
  rw [utf8Fold, show utf8Step (0, 0, 0) b = some (0, 0, 0) by
    rw [utf8Step, if_pos hb]]

/-- Every all-ASCII byte sequence is valid UTF-8. -/
theorem ascii_validUtf8 :
    ∀ {bs : Bytes}, (∀ b ∈ bs, b < 128) → validUtf8 bs = true := by
  intro bs
  induction bs with
  | nil => intro _; rfl
  | cons b rest ih =>
    intro h
    rw [validUtf8_cons_ascii (h b (by simp))]
    exact ih (fun x hx => h x (by simp [hx]))

/-! ### Pointwise success and failure of single-byte matchers -/

theorem satisfy_fail {p : Nat → Bool} {input : Bytes} {pos : Nat}
    (h : ∀ b, input[pos]? = some b → p b = false) :
    satisfy p input pos = .fail := by
  unfold satisfy
  cases hg : input[pos]? with
  | none => rfl
  | some b => simp [h b hg]

theorem satisfy_ok {p : Nat → Bool} {input : Bytes} {pos b : Nat}
    (hg : input[pos]? = some b) (hb : p b = true) :
    satisfy p input pos = .ok b (pos + 1) := by
  unfold satisfy
  rw [hg]
  simp [hb]

theorem palt_fail_left {α : Type} {a b : ParserM α} {input : Bytes} {pos : Nat}
    (h : a input pos = .fail) : palt a b input pos = b input pos := by
  unfold palt
  rw [h]

/-- Byte lookup at the boundary of a known prefix followed by a cons. -/
theorem getElem?_boundary {pre rest : Bytes} {x : Nat} :
    (pre ++ (x :: rest))[pre.length]? = some x := by
  rw [getElem?_append_start]
  simp

/-! ### Runs of the number-literal parsers -/

/-- A radix-prefixed number parser (`#` + lead byte + digit run) on a
well-formed literal followed by a non-digit boundary: it consumes the
whole literal and applies the conversion closure to the collected slice
(prefix included); a `none` from the closure is a panic. -/
theorem prefixed_number_run {f : Bytes → Option LispVal} {c : Nat} {chars : Bytes}
    {pre d post : Bytes}
    (hd : d ≠ []) (hmem : ∀ b ∈ d, b ∈ chars)
    (hpost : ∀ b, post[0]? = some b → chars.contains b = false) :
    pmapU f (pcollect (pseqR (pdiscard (pseqR (sym 35) (sym c)))
        (prepeat 1 (one_of chars))))
      (pre ++ ((35 :: c :: d) ++ post)) pre.length =
      match f (35 :: c :: d) with
      | some v => .ok v (pre.length + (d.length + 2))
      | none => .panic := by
  have hin1 : pre ++ ((35 :: c :: d) ++ post) = pre ++ (35 :: (c :: (d ++ post))) := by
    simp
  have hin2 : pre ++ ((35 :: c :: d) ++ post) = (pre ++ [35]) ++ (c :: (d ++ post)) := by
    simp
  have hin3 : pre ++ ((35 :: c :: d) ++ post) = (pre ++ [35, c]) ++ (d ++ post) := by
    simp
  have h35 : sym 35 (pre ++ ((35 :: c :: d) ++ post)) pre.length =
      .ok 35 (pre.length + 1) := by
    apply satisfy_ok
    · rw [hin1]; exact getElem?_boundary
    · simp
  have hc : sym c (pre ++ ((35 :: c :: d) ++ post)) (pre.length + 1) =
      .ok c (pre.length + 1 + 1) := by
    apply satisfy_ok
    · rw [hin2, show pre.length + 1 = (pre ++ [35]).length by simp]
      exact getElem?_boundary
    · simp
  have hrep : prepeat 1 (one_of chars) (pre ++ ((35 :: c :: d) ++ post))
      (pre.length + 1 + 1) = .ok d ((pre ++ [35, c]).length + d.length) := by
    rw [hin3, show pre.length + 1 + 1 = (pre ++ [35, c]).length by simp]
    exact prepeat_satisfy
      (fun b hb => contains_iff.mpr (hmem b hb))
      (by cases d with
        | nil => exact absurd rfl hd
        | cons x xs => simp)
      (pre ++ [35, c]) post
      (by cases hp : post[0]? with
        | none => trivial
        | some b => exact hpost b hp)
  have hcore : pseqR (pdiscard (pseqR (sym 35) (sym c))) (prepeat 1 (one_of chars))
      (pre ++ ((35 :: c :: d) ++ post)) pre.length =
      .ok d ((pre ++ [35, c]).length + d.length) := by
    unfold pseqR pdiscard
    simp only []
    rw [h35]
    simp only []
    rw [hc]
    simp only []
    exact hrep
  have hcol : pcollect (pseqR (pdiscard (pseqR (sym 35) (sym c)))
      (prepeat 1 (one_of chars))) (pre ++ ((35 :: c :: d) ++ post)) pre.length =
      .ok (35 :: c :: d) ((pre ++ [35, c]).length + d.length) := by
    unfold pcollect
    rw [hcore]
    simp only []
    have hlen : (pre ++ [35, c]).length + d.length - pre.length = (35 :: c :: d).length := by
      simp
      omega
    rw [hlen]
    have hsl : ((pre ++ ((35 :: c :: d) ++ post)).drop pre.length).take
        ((35 :: c :: d).length) = 35 :: c :: d := slice_middle
    rw [hsl]
  unfold pmapU
  rw [hcol]
  simp only []
  have hpos : (pre ++ [35, c]).length + d.length = pre.length + (d.length + 2) := by
    simp
    omega
  rw [hpos]
  cases hf : f (35 :: c :: d) <;> rfl

/-- `decimal_number` on a maximal digit run: consumes it and converts;
overflow of `i64::MAX` is a panic. -/
theorem decimal_number_run {pre d post : Bytes}
    (hd : d ≠ []) (hdig : ∀ b ∈ d, b ∈ digitChars)
    (hpost : ∀ b, post[0]? = some b → digitChars.contains b = false) :
    decimal_number (pre ++ (d ++ post)) pre.length =
      match from_str_radix d 10 with
      | some n => .ok (.Number n) (pre.length + d.length)
      | none => .panic := by
  have hrep : prepeat 1 digit (pre ++ (d ++ post)) pre.length =
      .ok d (pre.length + d.length) := by
    show prepeat 1 (satisfy fun b => digitChars.contains b) _ _ = _
    exact prepeat_satisfy
      (fun b hb => contains_iff.mpr (hdig b hb))
      (by cases d with
        | nil => exact absurd rfl hd
        | cons x xs => simp)
      pre post
      (by cases hp : post[0]? with
        | none => trivial
        | some b => exact hpost b hp)
  have hcol : pcollect (prepeat 1 digit) (pre ++ (d ++ post)) pre.length =
      .ok d (pre.length + d.length) := by
    unfold pcollect
    rw [hrep]
    simp only []
    rw [show pre.length + d.length - pre.length = d.length by omega]
    rw [slice_middle]
  have hutf : validUtf8 d = true :=
    ascii_validUtf8 (fun b hb => (digitChars_facts (hdig b hb)).2.2.1)
  unfold decimal_number pmapU
  simp only []
  rw [hcol]
  simp only [hutf, if_true]
  cases hf : from_str_radix d 10 <;> rfl

/-! ### Failure at the first byte, for every alternative -/

theorem prepeat_one_fail {p : Nat → Bool} {input : Bytes} {pos : Nat}
    (h : satisfy p input pos = .fail) :
    prepeat 1 (satisfy p) input pos = .fail := by
  unfold prepeat
  cases hfuel : input.length + 1 - pos with
  | zero => simp [repeatCore]
  | succ k =>
    simp only [repeatCore]
    rw [h]
    simp

theorem pmapU_pcollect_fail {α β : Type} {f : Bytes → Option β} {p : ParserM α}
    {input : Bytes} {pos : Nat} (h : p input pos = .fail) :
    pmapU f (pcollect p) input pos = .fail := by
  unfold pmapU pcollect
  rw [h]

/-- A radix-prefixed parser fails when the first byte is not `#` (or the
input is exhausted). -/
theorem prefixed_number_fail_head {f : Bytes → Option LispVal} {c : Nat}
    {chars : Bytes} {input : Bytes} {pos : Nat}
    (h : ∀ b, input[pos]? = some b → b ≠ 35) :
    pmapU f (pcollect (pseqR (pdiscard (pseqR (sym 35) (sym c)))
        (prepeat 1 (one_of chars)))) input pos = .fail := by
  apply pmapU_pcollect_fail
  unfold pseqR pdiscard sym
  simp only []
  rw [satisfy_fail (fun b hb => by simpa using h b hb)]

/-- A radix-prefixed parser fails when the first byte is `#` but the
radix lead byte does not follow. -/
theorem prefixed_number_fail_second {f : Bytes → Option LispVal} {c : Nat}
    {chars : Bytes} {input : Bytes} {pos : Nat}
    (h35 : input[pos]? = some 35)
    (h : ∀ b, input[pos + 1]? = some b → b ≠ c) :
    pmapU f (pcollect (pseqR (pdiscard (pseqR (sym 35) (sym c)))
        (prepeat 1 (one_of chars)))) input pos = .fail := by
  apply pmapU_pcollect_fail
  unfold pseqR pdiscard sym
  simp only []
  rw [satisfy_ok h35 (by simp)]
  simp only []
  rw [satisfy_fail (fun b hb => by simpa using h b hb)]

/-- `decimal_number` fails when the first byte is not a digit. -/
theorem decimal_number_fail {input : Bytes} {pos : Nat}
    (h : ∀ b, input[pos]? = some b → digitChars.contains b = false) :
    decimal_number input pos = .fail := by
  apply pmapU_pcollect_fail
  exact prepeat_one_fail (satisfy_fail h)

/-- `atom` fails when the first byte is in neither the letter class nor
the symbol class. -/
theorem atom_fail {input : Bytes} {pos : Nat}
    (h : ∀ b, input[pos]? = some b → atomFirst b = false) :
    atom input pos = .fail := by
  unfold atom
  apply pmapU_pcollect_fail
  unfold pseqPair
  rw [atom_first_matcher, satisfy_fail h]

/-- `string` fails when the first byte is not `"`. -/
theorem string_fail {input : Bytes} {pos : Nat}
    (h : ∀ b, input[pos]? = some b → b ≠ 34) :
    string input pos = .fail := by
  unfold string pmap pconvert pseqL pseqR one_of
  simp only []
  rw [satisfy_fail (fun b hb => by simpa using h b hb)]

theorem palt_ok_left {α : Type} {a b : ParserM α} {input : Bytes} {pos : Nat}
    {v : α} {q : Nat} (h : a input pos = .ok v q) :
    palt a b input pos = .ok v q := by
  unfold palt
  rw [h]

theorem palt_panic_left {α : Type} {a b : ParserM α} {input : Bytes} {pos : Nat}
    (h : a input pos = .panic) : palt a b input pos = .panic := by
  unfold palt
  rw [h]

/-- `number` fails when the first byte is neither `#` nor a digit. -/
theorem number_fail {input : Bytes} {pos : Nat}
    (h35 : ∀ b, input[pos]? = some b → b ≠ 35)
    (hdig : ∀ b, input[pos]? = some b → digitChars.contains b = false) :
    number input pos = .fail := by
  unfold number
  rw [palt_fail_left (show octal_number input pos = .fail from
      prefixed_number_fail_head h35),
    palt_fail_left (show binary_number input pos = .fail from
      prefixed_number_fail_head h35),
    palt_fail_left (show hex_number input pos = .fail from
      prefixed_number_fail_head h35)]
  exact decimal_number_fail hdig

/-- `parse_expr` fails when the input is exhausted or the next byte can
start no alternative: not a digit, not a letter, not a symbol-class byte
(in particular not `#`), not `"`. -/
theorem parse_expr_fail {input : Bytes} {pos : Nat}
    (h : ∀ b, input[pos]? = some b → isExprStart b = false) :
    parse_expr input pos = .fail := by
  have hfacts : ∀ b, input[pos]? = some b →
      digitChars.contains b = false ∧ alpha b = false ∧
        symbolChars.contains b = false ∧ b ≠ 34 := by
    intro b hb
    have hb2 := h b hb
    unfold isExprStart at hb2
    simp only [Bool.or_eq_false_iff] at hb2
    obtain ⟨h1, h2, h3, h4⟩ := hb2
    exact ⟨h1, h2, h3, by simpa using h4⟩
  have h35 : ∀ b, input[pos]? = some b → b ≠ 35 := by
    intro b hb hbeq
    subst hbeq
    have := (hfacts 35 hb).2.2.1
    rw [show (List.contains symbolChars 35) = true by decide] at this
    cases this
  unfold parse_expr
  rw [palt_fail_left (number_fail h35 (fun b hb => (hfacts b hb).1)),
    palt_fail_left (atom_fail (fun b hb => by
      unfold atomFirst
      rw [(hfacts b hb).2.1, (hfacts b hb).2.2.1]
      rfl))]
  exact string_fail (fun b hb => (hfacts b hb).2.2.2)

/-! ### Runs of `parse_expr` on each literal form -/

/-- `parse_expr` on a maximal decimal digit run: the three radix-prefixed
alternatives fail on the digit head, `decimal_number` consumes the run;
overflow panics. -/
theorem parse_expr_decimal_run {pre d post : Bytes}
    (hd : d ≠ []) (hdig : ∀ b ∈ d, b ∈ digitChars)
    (hpost : ∀ b, post[0]? = some b → digitChars.contains b = false) :
    parse_expr (pre ++ (d ++ post)) pre.length =
      match from_str_radix d 10 with
      | some n => .ok (.Number n) (pre.length + d.length)
      | none => .panic := by
  obtain ⟨c, cs, rfl⟩ : ∃ c cs, d = c :: cs := by
    cases d with
    | nil => exact absurd rfl hd
    | cons c cs => exact ⟨c, cs, rfl⟩
  have hget : (pre ++ ((c :: cs) ++ post))[pre.length]? = some c := by
    rw [show pre ++ ((c :: cs) ++ post) = pre ++ (c :: (cs ++ post)) by simp]
    exact getElem?_boundary
  have h35 : ∀ b, (pre ++ ((c :: cs) ++ post))[pre.length]? = some b → b ≠ 35 := by
    intro b hb
    rw [hget] at hb
    cases hb
    exact (digitChars_facts (hdig c (by simp))).2.2.2.2.2.2.1
  have hnum : number (pre ++ ((c :: cs) ++ post)) pre.length =
      decimal_number (pre ++ ((c :: cs) ++ post)) pre.length := by
    unfold number
    rw [palt_fail_left (show octal_number _ _ = .fail from
        prefixed_number_fail_head h35),
      palt_fail_left (show binary_number _ _ = .fail from
        prefixed_number_fail_head h35),
      palt_fail_left (show hex_number _ _ = .fail from
        prefixed_number_fail_head h35)]
  have hdec := @decimal_number_run pre (c :: cs) post hd hdig hpost
  cases hf : from_str_radix (c :: cs) 10 with
  | some n =>
    rw [hf] at hdec
    unfold parse_expr
    rw [palt_ok_left (by rw [hnum]; exact hdec)]
  | none =>
    rw [hf] at hdec
    unfold parse_expr
    rw [palt_panic_left (by rw [hnum]; exact hdec)]

/-- `parse_expr` on a maximal octal literal `#o` + digits. -/
theorem parse_expr_octal_run {pre d post : Bytes}
    (hd : d ≠ []) (hmem : ∀ b ∈ d, b ∈ octChars)
    (hpost : ∀ b, post[0]? = some b → octChars.contains b = false) :
    parse_expr (pre ++ ((35 :: 111 :: d) ++ post)) pre.length =
      match from_str_radix d 8 with
      | some n => .ok (.Number n) (pre.length + (d.length + 2))
      | none => .panic := by
  have hoct : octal_number (pre ++ ((35 :: 111 :: d) ++ post)) pre.length =
      match (from_str_radix d 8).map (fun n => LispVal.Number n) with
      | some v => .ok v (pre.length + (d.length + 2))
      | none => .panic := by
    exact @prefixed_number_run
      (fun parsed => (from_str_radix (parsed.drop 2) 8).map (fun n => LispVal.Number n))
      111 octChars pre d post hd hmem hpost
  cases hf : from_str_radix d 8 with
  | some n =>
    rw [hf] at hoct
    unfold parse_expr
    rw [palt_ok_left (show number _ _ = _ from palt_ok_left hoct)]
  | none =>
    rw [hf] at hoct
    unfold parse_expr
    rw [palt_panic_left (show number _ _ = _ from palt_panic_left hoct)]

/-- `parse_expr` on a maximal binary literal `#b` + digits (the octal
alternative fails on the `b` lead byte first). -/
theorem parse_expr_binary_run {pre d post : Bytes}
    (hd : d ≠ []) (hmem : ∀ b ∈ d, b ∈ binChars)
    (hpost : ∀ b, post[0]? = some b → binChars.contains b = false) :
    parse_expr (pre ++ ((35 :: 98 :: d) ++ post)) pre.length =
      match from_str_radix d 2 with
      | some n => .ok (.Number n) (pre.length + (d.length + 2))
      | none => .panic := by
  have hget35 : (pre ++ ((35 :: 98 :: d) ++ post))[pre.length]? = some 35 := by
    rw [show pre ++ ((35 :: 98 :: d) ++ post) = pre ++ (35 :: (98 :: d ++ post)) by simp]
    exact getElem?_boundary
  have hget98 : (pre ++ ((35 :: 98 :: d) ++ post))[pre.length + 1]? = some 98 := by
    rw [show pre ++ ((35 :: 98 :: d) ++ post) = (pre ++ [35]) ++ (98 :: (d ++ post)) by simp,
      show pre.length + 1 = (pre ++ [35]).length by simp]
    exact getElem?_boundary
  have hofail : octal_number (pre ++ ((35 :: 98 :: d) ++ post)) pre.length = .fail :=
    prefixed_number_fail_second hget35
      (fun b hb => by rw [hget98] at hb; cases hb; decide)
  have hbin : binary_number (pre ++ ((35 :: 98 :: d) ++ post)) pre.length =
      match (from_str_radix d 2).map (fun n => LispVal.Number n) with
      | some v => .ok v (pre.length + (d.length + 2))
      | none => .panic :=
    prefixed_number_run hd hmem hpost
  cases hf : from_str_radix d 2 with
  | some n =>
    rw [hf] at hbin
    unfold parse_expr
    rw [palt_ok_left (show number _ _ = _ from by
      unfold number
      rw [palt_fail_left hofail]
      exact palt_ok_left hbin)]
  | none =>
    rw [hf] at hbin
    unfold parse_expr
    rw [palt_panic_left (show number _ _ = _ from by
      unfold number
      rw [palt_fail_left hofail]
      exact palt_panic_left hbin)]

/-- `parse_expr` on a maximal hex literal `#x` + digits (octal and binary
alternatives fail on the `x` lead byte first). -/
theorem parse_expr_hex_run {pre d post : Bytes}
    (hd : d ≠ []) (hmem : ∀ b ∈ d, b ∈ hexChars)
    (hpost : ∀ b, post[0]? = some b → hexChars.contains b = false) :
    parse_expr (pre ++ ((35 :: 120 :: d) ++ post)) pre.length =
      match from_str_radix d 16 with
      | some n => .ok (.Number n) (pre.length + (d.length + 2))
      | none => .panic := by
  have hget35 : (pre ++ ((35 :: 120 :: d) ++ post))[pre.length]? = some 35 := by
    rw [show pre ++ ((35 :: 120 :: d) ++ post) = pre ++ (35 :: (120 :: d ++ post)) by simp]
    exact getElem?_boundary
  have hget120 : (pre ++ ((35 :: 120 :: d) ++ post))[pre.length + 1]? = some 120 := by
    rw [show pre ++ ((35 :: 120 :: d) ++ post) = (pre ++ [35]) ++ (120 :: (d ++ post)) by simp,
      show pre.length + 1 = (pre ++ [35]).length by simp]
    exact getElem?_boundary
  have hofail : octal_number (pre ++ ((35 :: 120 :: d) ++ post)) pre.length = .fail :=
    prefixed_number_fail_second hget35
      (fun b hb => by rw [hget120] at hb; cases hb; decide)
  have hbfail : binary_number (pre ++ ((35 :: 120 :: d) ++ post)) pre.length = .fail :=
    prefixed_number_fail_second hget35
      (fun b hb => by rw [hget120] at hb; cases hb; decide)
  have hhex : hex_number (pre ++ ((35 :: 120 :: d) ++ post)) pre.length =
      match (from_str_radix d 16).map (fun n => LispVal.Number n) with
      | some v => .ok v (pre.length + (d.length + 2))
      | none => .panic :=
    prefixed_number_run hd hmem hpost
  cases hf : from_str_radix d 16 with
  | some n =>
    rw [hf] at hhex
    unfold parse_expr
    rw [palt_ok_left (show number _ _ = _ from by
      unfold number
      rw [palt_fail_left hofail, palt_fail_left hbfail]
      exact palt_ok_left hhex)]
  | none =>
    rw [hf] at hhex
    unfold parse_expr
    rw [palt_panic_left (show number _ _ = _ from by
      unfold number
      rw [palt_fail_left hofail, palt_fail_left hbfail]
      exact palt_panic_left hhex)]

theorem pseqR_ok {α β : Type} {a : ParserM α} {b : ParserM β} {input : Bytes}
    {pos : Nat} {v : α} {q : Nat} (ha : a input pos = .ok v q) :
    pseqR a b input pos = b input q := by
  unfold pseqR
  rw [ha]

theorem pseqL_ok {α β : Type} {a : ParserM α} {b : ParserM β} {input : Bytes}
    {pos : Nat} {v : α} {w : β} {q r : Nat}
    (ha : a input pos = .ok v q) (hb : b input q = .ok w r) :
    pseqL a b input pos = .ok v r := by
  unfold pseqL
  rw [ha]
  simp only []
  rw [hb]

theorem pseqPair_ok {α β : Type} {a : ParserM α} {b : ParserM β} {input : Bytes}
    {pos : Nat} {v : α} {w : β} {q r : Nat}
    (ha : a input pos = .ok v q) (hb : b input q = .ok w r) :
    pseqPair a b input pos = .ok (v, w) r := by
  unfold pseqPair
  rw [ha]
  simp only []
  rw [hb]

theorem pmap_of_ok {α β : Type} {f : α → β} {p : ParserM α} {input : Bytes}
    {pos : Nat} {v : α} {q : Nat} (h : p input pos = .ok v q) :
    pmap f p input pos = .ok (f v) q := by
  unfold pmap
  rw [h]

theorem pconvert_of_ok {α β : Type} {f : α → Option β} {p : ParserM α}
    {input : Bytes} {pos : Nat} {v : α} {q : Nat} (h : p input pos = .ok v q) :
    pconvert f p input pos =
      match f v with
      | some w => .ok w q
      | none => .fail := by
  unfold pconvert
  rw [h]

/-- `atom` on a maximal token of the atom grammar: collects the token;
`#t`/`#f` become booleans, everything else an `Atom` with the literal
bytes (the UTF-8 unwrap cannot fail on these ASCII classes). -/
theorem atom_run {pre post : Bytes} {c : Nat} {cs : Bytes}
    (hc : atomFirst c = true) (hcs : ∀ b ∈ cs, atomRest b = true)
    (hpost : ∀ b, post[0]? = some b → atomRest b = false) :
    atom (pre ++ ((c :: cs) ++ post)) pre.length =
      .ok (if c :: cs = [35, 116] then LispVal.Bool true
        else if c :: cs = [35, 102] then LispVal.Bool false
        else LispVal.Atom (c :: cs)) (pre.length + (cs.length + 1)) := by
  have hfirst : palt letter (symbol ()) (pre ++ ((c :: cs) ++ post)) pre.length =
      .ok c (pre.length + 1) := by
    rw [atom_first_matcher]
    apply satisfy_ok _ hc
    rw [show pre ++ ((c :: cs) ++ post) = pre ++ (c :: (cs ++ post)) by simp]
    exact getElem?_boundary
  have hrest : prepeat 0 (palt letter (palt digit (symbol ())))
      (pre ++ ((c :: cs) ++ post)) (pre.length + 1) =
      .ok cs ((pre ++ [c]).length + cs.length) := by
    rw [atom_rest_matcher,
      show pre ++ ((c :: cs) ++ post) = (pre ++ [c]) ++ (cs ++ post) by simp,
      show pre.length + 1 = (pre ++ [c]).length by simp]
    exact prepeat_satisfy hcs (by simp) (pre ++ [c]) post
      (by cases hp : post[0]? with
        | none => trivial
        | some b => exact hpost b hp)
  have hpair : pseqPair (palt letter (symbol ()))
      (prepeat 0 (palt letter (palt digit (symbol ()))))
      (pre ++ ((c :: cs) ++ post)) pre.length =
      .ok (c, cs) ((pre ++ [c]).length + cs.length) :=
    pseqPair_ok hfirst hrest
  have hcol : pcollect (pseqPair (palt letter (symbol ()))
      (prepeat 0 (palt letter (palt digit (symbol ())))))
      (pre ++ ((c :: cs) ++ post)) pre.length =
      .ok (c :: cs) ((pre ++ [c]).length + cs.length) := by
    unfold pcollect
    rw [hpair]
    simp only []
    have hlen : (pre ++ [c]).length + cs.length - pre.length = (c :: cs).length := by
      simp
      omega
    rw [hlen, slice_middle]
  have hutf : validUtf8 (c :: cs) = true := by
    apply ascii_validUtf8
    intro b hb
    rcases List.mem_cons.mp hb with rfl | hmem
    · exact atomFirst_ascii hc
    · exact atomRest_ascii (hcs b hmem)
  have hpos : (pre ++ [c]).length + cs.length = pre.length + (cs.length + 1) := by
    simp
    omega
  unfold atom pmapU
  simp only []
  rw [hcol]
  simp only []
  rw [hpos]
  by_cases ht : c :: cs = [35, 116]
  · simp [ht]
  · by_cases hf2 : c :: cs = [35, 102]
    · simp [ht, hf2]
    · simp [ht, hf2, hutf]

/-! ### Runs of the string-literal parser -/

/-- The repeat loop of the string-content matcher consumes an encoded
content `e` (stopping at the closing quote) and yields the decoded
content `o`. -/
theorem repeatCore_strElem {e o : Bytes} (henc : StrEnc e o) :
    ∀ (pre post : Bytes) (fuel : Nat), e.length + 1 ≤ fuel →
      repeatCore (palt (none_of [92, 34]) (pseqR (sym 92) (sym 34))) fuel
        (pre ++ (e ++ (34 :: post))) pre.length = .ok o (pre.length + e.length) := by
  induction henc with
  | nil =>
    intro pre post fuel hfuel
    match fuel, hfuel with
    | fuel + 1, _ =>
      have hget : (pre ++ ([] ++ (34 :: post)))[pre.length]? = some 34 := by
        rw [show pre ++ ([] ++ (34 :: post)) = pre ++ (34 :: post) by simp]
        exact getElem?_boundary
      have hE : palt (none_of [92, 34]) (pseqR (sym 92) (sym 34))
          (pre ++ ([] ++ (34 :: post))) pre.length = .fail := by
        rw [palt_fail_left (show none_of [92, 34] _ _ = .fail from
          satisfy_fail (fun b hb => by rw [hget] at hb; cases hb; decide))]
        unfold pseqR sym
        rw [satisfy_fail (fun b hb => by rw [hget] at hb; cases hb; decide)]
      simp only [repeatCore]
      rw [hE]
      simp
  | plain b e o h92 h34 henc ih =>
    intro pre post fuel hfuel
    match fuel, hfuel with
    | fuel + 1, hfuel =>
      have hget : (pre ++ ((b :: e) ++ (34 :: post)))[pre.length]? = some b := by
        rw [show pre ++ ((b :: e) ++ (34 :: post)) = pre ++ (b :: (e ++ 34 :: post)) by simp]
        exact getElem?_boundary
      have hE : palt (none_of [92, 34]) (pseqR (sym 92) (sym 34))
          (pre ++ ((b :: e) ++ (34 :: post))) pre.length = .ok b (pre.length + 1) := by
        apply palt_ok_left
        apply satisfy_ok hget
        simp only [Bool.not_eq_true']
        have : b ∈ [92, 34] → False := by
          intro hmem
          rcases List.mem_cons.mp hmem with rfl | hmem2
          · exact h92 rfl
          · rcases List.mem_cons.mp hmem2 with rfl | hmem3
            · exact h34 rfl
            · cases hmem3
        cases hcon : List.contains [92, 34] b with
        | false => rfl
        | true => exact absurd (contains_iff.mp hcon) this
      simp only [repeatCore]
      rw [hE]
      simp only []
      rw [if_neg (by omega)]
      have hre : pre ++ ((b :: e) ++ (34 :: post)) = (pre ++ [b]) ++ (e ++ (34 :: post)) := by
        simp
      have hlen : pre.length + 1 = (pre ++ [b]).length := by simp
      rw [hre, hlen, ih (pre ++ [b]) post fuel (by
        simp only [List.length_cons] at hfuel
        omega)]
      have harith : (pre ++ [b]).length + e.length = pre.length + (b :: e).length := by
        simp
        omega
      rw [harith]
  | esc e o henc ih =>
    intro pre post fuel hfuel
    match fuel, hfuel with
    | fuel + 1, hfuel =>
      have hget92 : (pre ++ ((92 :: 34 :: e) ++ (34 :: post)))[pre.length]? = some 92 := by
        rw [show pre ++ ((92 :: 34 :: e) ++ (34 :: post)) =
          pre ++ (92 :: (34 :: e ++ 34 :: post)) by simp]
        exact getElem?_boundary
      have hget34 : (pre ++ ((92 :: 34 :: e) ++ (34 :: post)))[pre.length + 1]? = some 34 := by
        rw [show pre ++ ((92 :: 34 :: e) ++ (34 :: post)) =
          (pre ++ [92]) ++ (34 :: (e ++ 34 :: post)) by simp,
          show pre.length + 1 = (pre ++ [92]).length by simp]
        exact getElem?_boundary
      have hE : palt (none_of [92, 34]) (pseqR (sym 92) (sym 34))
          (pre ++ ((92 :: 34 :: e) ++ (34 :: post))) pre.length =
          .ok 34 (pre.length + 1 + 1) := by
        rw [palt_fail_left (show none_of [92, 34] _ _ = .fail from
          satisfy_fail (fun b hb => by rw [hget92] at hb; cases hb; decide))]
        unfold pseqR sym
        rw [satisfy_ok hget92 (by simp)]
        simp only []
        exact satisfy_ok hget34 (by simp)
      simp only [repeatCore]
      rw [hE]
      simp only []
      rw [if_neg (by omega)]
      have hre : pre ++ ((92 :: 34 :: e) ++ (34 :: post)) =
          (pre ++ [92, 34]) ++ (e ++ (34 :: post)) := by simp
      have hlen : pre.length + 1 + 1 = (pre ++ [92, 34]).length := by simp
      rw [hre, hlen, ih (pre ++ [92, 34]) post fuel (by
        simp only [List.length_cons] at hfuel
        omega)]
      have harith : (pre ++ [92, 34]).length + e.length = pre.length + (92 :: 34 :: e).length := by
        simp
        omega
      rw [harith]

/-- `string` on a full string literal: open quote, encoded content,
closing quote; yields the decoded content when it is valid UTF-8 and a
parse failure otherwise. -/
theorem string_run {pre post e o : Bytes} (henc : StrEnc e o) :
    string (pre ++ (34 :: (e ++ (34 :: post)))) pre.length =
      (if validUtf8 o then .ok (.String o) (pre.length + (e.length + 2)) else .fail) := by
  have hopen : one_of [34] (pre ++ (34 :: (e ++ (34 :: post)))) pre.length =
      .ok 34 (pre.length + 1) := by
    apply satisfy_ok getElem?_boundary
    decide
  have hlen1 : pre.length + 1 = (pre ++ [34]).length := by simp
  have hre1 : pre ++ (34 :: (e ++ (34 :: post))) = (pre ++ [34]) ++ (e ++ (34 :: post)) := by
    simp
  have hrep : prepeat 0 (palt (none_of [92, 34]) (pseqR (sym 92) (sym 34)))
      (pre ++ (34 :: (e ++ (34 :: post)))) (pre.length + 1) =
      .ok o ((pre ++ [34]).length + e.length) := by
    rw [hre1, hlen1]
    unfold prepeat
    rw [repeatCore_strElem henc (pre ++ [34]) post _ (by
      simp only [List.length_append, List.length_cons]
      omega)]
    simp
  have hget34 : (pre ++ (34 :: (e ++ (34 :: post))))[(pre ++ [34]).length + e.length]? =
      some 34 := by
    have h1 : pre ++ (34 :: (e ++ (34 :: post))) = ((pre ++ [34]) ++ e) ++ (34 :: post) := by
      simp
    have h2 : (pre ++ [34]).length + e.length = ((pre ++ [34]) ++ e).length := by
      simp
      omega
    rw [h1, h2]
    exact getElem?_boundary
  have hq34 : one_of [34] (pre ++ (34 :: (e ++ (34 :: post))))
      ((pre ++ [34]).length + e.length) =
      .ok 34 ((pre ++ [34]).length + e.length + 1) := by
    apply satisfy_ok hget34
    decide
  have hclose : pcollect (one_of [34]) (pre ++ (34 :: (e ++ (34 :: post))))
      ((pre ++ [34]).length + e.length) =
      .ok [34] ((pre ++ [34]).length + e.length + 1) := by
    unfold pcollect
    rw [hq34]
    simp only []
    rw [Nat.add_sub_cancel_left]
    have h1 : pre ++ (34 :: (e ++ (34 :: post))) = ((pre ++ [34]) ++ e) ++ (34 :: post) := by
      simp
    have h2 : (pre ++ [34]).length + e.length = ((pre ++ [34]) ++ e).length := by
      simp
      omega
    rw [h1, h2, List.drop_left]
    rfl
  have hmatcher : pseqL (pseqR (one_of [34])
      (prepeat 0 (palt (none_of [92, 34]) (pseqR (sym 92) (sym 34)))))
      (pcollect (one_of [34])) (pre ++ (34 :: (e ++ (34 :: post)))) pre.length =
      .ok o ((pre ++ [34]).length + e.length + 1) := by
    apply pseqL_ok _ hclose
    rw [pseqR_ok hopen]
    exact hrep
  have hpos : (pre ++ [34]).length + e.length + 1 = pre.length + (e.length + 2) := by
    simp
    omega
  show pmap (fun s => LispVal.String s)
    (pconvert (fun p => if validUtf8 p then some p else none)
      (pseqL (pseqR (one_of [34])
        (prepeat 0 (palt (none_of [92, 34]) (pseqR (sym 92) (sym 34)))))
        (pcollect (one_of [34])))) _ _ = _
  by_cases hv : validUtf8 o
  · have hcv : pconvert (fun p => if validUtf8 p then some p else none)
        (pseqL (pseqR (one_of [34])
          (prepeat 0 (palt (none_of [92, 34]) (pseqR (sym 92) (sym 34)))))
          (pcollect (one_of [34]))) (pre ++ (34 :: (e ++ (34 :: post)))) pre.length =
        .ok o ((pre ++ [34]).length + e.length + 1) := by
      rw [pconvert_of_ok hmatcher]
      simp [hv]
    rw [pmap_of_ok hcv, hpos]
    simp [hv]
  · have hcv : pconvert (fun p => if validUtf8 p then some p else none)
        (pseqL (pseqR (one_of [34])
          (prepeat 0 (palt (none_of [92, 34]) (pseqR (sym 92) (sym 34)))))
          (pcollect (one_of [34]))) (pre ++ (34 :: (e ++ (34 :: post)))) pre.length = .fail := by
      rw [pconvert_of_ok hmatcher]
      simp [hv]
    unfold pmap
    rw [hcv]
    simp [hv]

/-- When the next byte is `"`, the number and atom alternatives fail, so
`parse_expr` behaves as `string`. -/
theorem parse_expr_at_quote {input : Bytes} {pos : Nat}
    (h34 : input[pos]? = some 34) :
    parse_expr input pos = string input pos := by
  unfold parse_expr
  rw [palt_fail_left (number_fail
      (fun b hb => by rw [h34] at hb; cases hb; decide)
      (fun b hb => by rw [h34] at hb; cases hb; decide)),
    palt_fail_left (atom_fail
      (fun b hb => by rw [h34] at hb; cases hb; decide))]

/-! ### Runs of the list parser on whitespace-separated digit tokens -/

/-- `whitespace` consumes a maximal whitespace run. -/
theorem whitespace_run {pre s post : Bytes}
    (hs : ∀ b ∈ s, b ∈ wsChars)
    (hpost : ∀ b, post[0]? = some b → wsChars.contains b = false) :
    whitespace (pre ++ (s ++ post)) pre.length = .ok () (pre.length + s.length) := by
  unfold whitespace pdiscard
  have hr : prepeat 0 (one_of wsChars) (pre ++ (s ++ post)) pre.length =
      .ok s (pre.length + s.length) :=
    prepeat_satisfy (fun b hb => contains_iff.mpr (hs b hb)) (by simp) pre post
      (by cases hp : post[0]? with
        | none => trivial
        | some b => exact hpost b hp)
  rw [hr]

/-- One well-formed decimal token: nonempty, all digits, value within
`i64::MAX`. -/
@[reducible] def goodTok (t : Bytes) : Prop :=
  t ≠ [] ∧ (∀ b ∈ t, b ∈ digitChars) ∧ baseVal 10 t ≤ i64Max

/-- `parse_expr` on a good token bounded by a non-digit: a `Number`. -/
theorem parse_expr_goodTok {pre t post : Bytes} (ht : goodTok t)
    (hpost : ∀ b, post[0]? = some b → digitChars.contains b = false) :
    parse_expr (pre ++ (t ++ post)) pre.length =
      .ok (.Number (Int.ofNat (baseVal 10 t))) (pre.length + t.length) := by
  obtain ⟨hne, hdig, hle⟩ := ht
  have h := @parse_expr_decimal_run pre t post hne hdig hpost
  rw [from_str_radix_some (by omega) hne
    (fun c hc => by
      obtain ⟨h1, h2, _⟩ := digitChars_facts (hdig c hc)
      exact ⟨c - 48, h1, by omega⟩) hle] at h
  exact h

/-- Every byte of the separator-joined token list is fixed by the token
hypotheses; the loop of `list(parse_expr, whitespace)` consumes
`joinRest ds` entirely when the following byte can neither extend a token
nor start an expression nor be whitespace. -/
theorem listCore_digit_tokens {ds : List Bytes}
    (hds : ∀ t ∈ ds, goodTok t) :
    ∀ (pre post : Bytes) (fuel : Nat),
      (joinRest ds).length + 1 ≤ fuel →
      (∀ b, post[0]? = some b → isExprStart b = false ∧ wsChars.contains b = false) →
      listCore parse_expr whitespace fuel (pre ++ (joinRest ds ++ post)) pre.length =
        .ok (ds.map fun t => LispVal.Number (Int.ofNat (baseVal 10 t)))
          (pre.length + (joinRest ds).length) := by
  induction ds with
  | nil =>
    intro pre post fuel hfuel hpost
    match fuel, hfuel with
    | fuel + 1, _ =>
      have hsep : whitespace (pre ++ (joinRest [] ++ post)) pre.length =
          .ok () (pre.length) := by
        have h := @whitespace_run pre [] post
          (by simp) (fun b hb => (hpost b hb).2)
        simpa using h
      have hitem : parse_expr (pre ++ (joinRest [] ++ post)) pre.length = .fail := by
        apply parse_expr_fail
        intro b hb
        apply (hpost b _).1
        rw [show pre ++ (joinRest [] ++ post) = pre ++ post by simp [joinRest]] at hb
        rw [getElem?_append_start] at hb
        exact hb
      simp only [listCore]
      rw [hsep]
      simp only []
      rw [hitem]
      simp [joinRest]
  | cons t rest ih =>
    intro pre post fuel hfuel hpost
    obtain ⟨hne, hdigs, hle⟩ := hds t (by simp)
    obtain ⟨c0, t2, rfl⟩ : ∃ c0 t2, t = c0 :: t2 := by
      cases t with
      | nil => exact absurd rfl hne
      | cons c0 t2 => exact ⟨c0, t2, rfl⟩
    set t := c0 :: t2 with ht
    match fuel, hfuel with
    | fuel + 1, hfuel =>
      have hjr : joinRest (t :: rest) = 32 :: (t ++ joinRest rest) := by
        simp [joinRest]
      have hin1 : pre ++ (joinRest (t :: rest) ++ post) =
          pre ++ ([32] ++ ((t ++ joinRest rest) ++ post)) := by
        rw [hjr]; simp
      have hheadt : ∀ b, ((t ++ joinRest rest) ++ post)[0]? = some b →
          wsChars.contains b = false := by
        intro b hb
        rw [ht] at hb
        simp only [List.cons_append, List.getElem?_cons_zero] at hb
        cases hb
        exact (digitChars_facts (hdigs c0 (by rw [ht]; simp))).2.2.2.2.2.2.2.1
      have hsep : whitespace (pre ++ (joinRest (t :: rest) ++ post)) pre.length =
          .ok () (pre.length + 1) := by
        rw [hin1]
        have h := @whitespace_run pre [32]
          ((t ++ joinRest rest) ++ post) (by decide) hheadt
        simpa using h
      have hafter : ∀ b, (joinRest rest ++ post)[0]? = some b →
          digitChars.contains b = false := by
        intro b hb
        cases rest with
        | nil =>
          simp only [joinRest, List.foldr_nil, List.nil_append] at hb
          have h1 := (hpost b hb).1
          unfold isExprStart at h1
          simp only [Bool.or_eq_false_iff] at h1
          exact h1.1
        | cons r rs =>
          rw [show joinRest (r :: rs) = 32 :: (r ++ joinRest rs) by simp [joinRest]] at hb
          simp only [List.cons_append, List.getElem?_cons_zero] at hb
          cases hb
          decide
      have hin2 : pre ++ (joinRest (t :: rest) ++ post) =
          (pre ++ [32]) ++ (t ++ (joinRest rest ++ post)) := by
        rw [hjr]; simp
      have hitem : parse_expr (pre ++ (joinRest (t :: rest) ++ post)) (pre.length + 1) =
          .ok (.Number (Int.ofNat (baseVal 10 t))) ((pre ++ [32]).length + t.length) := by
        rw [hin2, show pre.length + 1 = (pre ++ [32]).length by simp]
        exact parse_expr_goodTok ⟨hne, hdigs, hle⟩ hafter
      have htne : 1 ≤ t.length := by
        rw [ht]
        simp
      have hin3 : pre ++ (joinRest (t :: rest) ++ post) =
          (pre ++ (32 :: t)) ++ (joinRest rest ++ post) := by
        rw [hjr]; simp
      have hrec := ih (fun x hx => hds x (by simp [hx])) (pre ++ (32 :: t))
        post fuel (by
          rw [hjr] at hfuel
          simp only [List.length_cons, List.length_append] at hfuel ⊢
          omega) hpost
      simp only [listCore]
      rw [hsep]
      simp only []
      rw [hitem]
      simp only []
      rw [if_neg (by
        simp only [List.length_append, List.length_cons, List.length_nil]
        omega)]
      have hpos2 : (pre ++ [32]).length + t.length = (pre ++ (32 :: t)).length := by
        simp only [List.length_append, List.length_cons, List.length_nil]
        omega
      rw [hpos2, hin3, hrec]
      have harith : (pre ++ (32 :: t)).length + (joinRest rest).length =
          pre.length + (joinRest (t :: rest)).length := by
        rw [hjr]
        simp only [List.length_append, List.length_cons, List.length_nil]
        omega
      rw [harith]
      rfl

/-- `list(call(parse_expr), whitespace())` on a joined token sequence. -/
theorem plist_digit_tokens {ds : List Bytes} (hds : ∀ t ∈ ds, goodTok t)
    {pre post : Bytes}
    (hpost : ∀ b, post[0]? = some b → isExprStart b = false ∧ wsChars.contains b = false) :
    plist parse_expr whitespace (pre ++ (joinToks ds ++ post)) pre.length =
      .ok (ds.map fun t => LispVal.Number (Int.ofNat (baseVal 10 t)))
        (pre.length + (joinToks ds).length) := by
  cases ds with
  | nil =>
    have hitem : parse_expr (pre ++ (joinToks [] ++ post)) pre.length = .fail := by
      apply parse_expr_fail
      intro b hb
      apply (hpost b _).1
      rw [show pre ++ (joinToks [] ++ post) = pre ++ post by simp [joinToks]] at hb
      rw [getElem?_append_start] at hb
      exact hb
    unfold plist
    rw [hitem]
    simp [joinToks]
  | cons t rest =>
    obtain ⟨hne, hdigs, hle⟩ := hds t (by simp)
    have hjt : joinToks (t :: rest) = t ++ joinRest rest := rfl
    have hafter : ∀ b, (joinRest rest ++ post)[0]? = some b →
        digitChars.contains b = false := by
      intro b hb
      cases rest with
      | nil =>
        simp only [joinRest, List.foldr_nil, List.nil_append] at hb
        have h1 := (hpost b hb).1
        unfold isExprStart at h1
        simp only [Bool.or_eq_false_iff] at h1
        exact h1.1
      | cons r rs =>
        rw [show joinRest (r :: rs) = 32 :: (r ++ joinRest rs) by simp [joinRest]] at hb
        simp only [List.cons_append, List.getElem?_cons_zero] at hb
        cases hb
        decide
    have hin1 : pre ++ (joinToks (t :: rest) ++ post) =
        pre ++ (t ++ (joinRest rest ++ post)) := by
      rw [hjt]; simp
    have hitem : parse_expr (pre ++ (joinToks (t :: rest) ++ post)) pre.length =
        .ok (.Number (Int.ofNat (baseVal 10 t))) (pre.length + t.length) := by
      rw [hin1]
      exact parse_expr_goodTok ⟨hne, hdigs, hle⟩ hafter
    have htne : 1 ≤ t.length := by
      cases t with
      | nil => exact absurd rfl hne
      | cons c cs => simp
    have hin2 : pre ++ (joinToks (t :: rest) ++ post) =
        (pre ++ t) ++ (joinRest rest ++ post) := by
      rw [hjt]; simp
    have hrec := @listCore_digit_tokens rest (fun x hx => hds x (by simp [hx]))
      (pre ++ t) post ((pre ++ (joinToks (t :: rest) ++ post)).length + 1 -
        (pre.length + t.length))
      (by
        rw [hjt]
        simp only [List.length_append, List.length_cons, List.length_nil]
        omega) hpost
    unfold plist
    rw [hitem]
    simp only []
    rw [if_neg (by omega)]
    rw [show pre.length + t.length = (pre ++ t).length by simp]
    rw [hin2]
    have hfuel : ((pre ++ t) ++ (joinRest rest ++ post)).length + 1 - (pre ++ t).length =
        (pre ++ (joinToks (t :: rest) ++ post)).length + 1 - (pre.length + t.length) := by
      rw [hin2]
      simp only [List.length_append]
    rw [hfuel, hrec]
    have harith : (pre ++ t).length + (joinRest rest).length =
        pre.length + (joinToks (t :: rest)).length := by
      rw [hjt]
      simp only [List.length_append]
      omega
    rw [harith]
    rfl

/-- `parse_list` on a parenthesized, space-separated sequence of good
decimal tokens: the elements in input order. -/
theorem parse_list_digit_tokens {ds : List Bytes} (hds : ∀ t ∈ ds, goodTok t) :
    parse_list ((40 :: joinToks ds) ++ [41]) 0 =
      .ok (ds.map fun t => LispVal.Number (Int.ofNat (baseVal 10 t)))
        ((joinToks ds).length + 2) := by
  have h40 : sym 40 ((40 :: joinToks ds) ++ [41]) 0 = .ok 40 1 := by
    apply satisfy_ok
    · simp
    · simp
  have hpl : plist parse_expr whitespace ((40 :: joinToks ds) ++ [41]) 1 =
      .ok (ds.map fun t => LispVal.Number (Int.ofNat (baseVal 10 t)))
        (1 + (joinToks ds).length) := by
    have h := @plist_digit_tokens ds hds [40] [41]
      (fun b hb => by
        simp only [List.getElem?_cons_zero] at hb
        cases hb
        exact ⟨by decide, by decide⟩)
    simpa using h
  have hget41 : ((40 :: joinToks ds) ++ [41])[1 + (joinToks ds).length]? = some 41 := by
    rw [show (40 :: joinToks ds) ++ [41] = (40 :: joinToks ds) ++ (41 :: []) by rfl,
      show 1 + (joinToks ds).length = (40 :: joinToks ds).length by simp; omega]
    exact getElem?_boundary
  have h41 : sym 41 ((40 :: joinToks ds) ++ [41]) (1 + (joinToks ds).length) =
      .ok 41 (1 + (joinToks ds).length + 1) := by
    apply satisfy_ok hget41
    simp
  unfold parse_list call
  rw [show (joinToks ds).length + 2 = 1 + (joinToks ds).length + 1 by omega]
  exact pseqL_ok (by rw [pseqR_ok h40]; exact hpl) h41

/-- `parse_list` without the closing parenthesis: after the elements the
required `)` is missing, so the parse fails. -/
theorem parse_list_digit_tokens_noclose {ds : List Bytes} (hds : ∀ t ∈ ds, goodTok t) :
    parse_list (40 :: joinToks ds) 0 = .fail := by
  have h40 : sym 40 (40 :: joinToks ds) 0 = .ok 40 1 := by
    apply satisfy_ok
    · simp
    · simp
  have hpl : plist parse_expr whitespace (40 :: joinToks ds) 1 =
      .ok (ds.map fun t => LispVal.Number (Int.ofNat (baseVal 10 t)))
        (1 + (joinToks ds).length) := by
    have h := @plist_digit_tokens ds hds [40] []
      (fun b hb => by simp at hb)
    simpa using h
  have h41 : sym 41 (40 :: joinToks ds) (1 + (joinToks ds).length) = .fail := by
    apply satisfy_fail
    intro b hb
    rw [List.getElem?_eq_none (by simp; omega)] at hb
    cases hb
  unfold parse_list call pseqL
  rw [pseqR_ok h40, hpl]
  simp only []
  rw [h41]

/-! ### Entry points -/

theorem read_expr_of_ok {input : Bytes} {v : LispVal} {n : Nat}
    (h : parse_expr input 0 = .ok v n) : read_expr input = some v := by
  unfold read_expr
  rw [h]

theorem read_expr_of_fail {input : Bytes} (h : parse_expr input 0 = .fail) :
    read_expr input = none := by
  unfold read_expr
  rw [h]

theorem read_expr_of_panic {input : Bytes} (h : parse_expr input 0 = .panic) :
    read_expr input = none := by
  unfold read_expr
  rw [h]

theorem read_list_of_ok {input : Bytes} {vs : List LispVal} {n : Nat}
    (h : parse_list input 0 = .ok vs n) : read_list input = some (.List vs) := by
  unfold read_list
  rw [h]

theorem read_list_of_fail {input : Bytes} (h : parse_list input 0 = .fail) :
    read_list input = none := by
  unfold read_list
  rw [h]

/-! ### Inversion lemmas and the shape of produced values -/

theorem palt_ok_inv {α : Type} {a b : ParserM α} {input : Bytes} {pos : Nat}
    {v : α} {q : Nat} (h : palt a b input pos = .ok v q) :
    a input pos = .ok v q ∨ (a input pos = .fail ∧ b input pos = .ok v q) := by
  unfold palt at h
  cases ha : a input pos with
  | ok w r =>
    rw [ha] at h
    simp only [] at h
    exact Or.inl h
  | fail => rw [ha] at h; exact Or.inr ⟨rfl, h⟩
  | panic => rw [ha] at h; cases h

theorem pmapU_ok_inv {α β : Type} {f : α → Option β} {p : ParserM α}
    {input : Bytes} {pos : Nat} {v : β} {q : Nat}
    (h : pmapU f p input pos = .ok v q) :
    ∃ a, p input pos = .ok a q ∧ f a = some v := by
  unfold pmapU at h
  cases hp : p input pos with
  | ok a r =>
    rw [hp] at h
    simp only [] at h
    cases hf : f a with
    | some b => rw [hf] at h; cases h; exact ⟨a, rfl, hf⟩
    | none => rw [hf] at h; cases h
  | fail => rw [hp] at h; cases h
  | panic => rw [hp] at h; cases h

theorem pmap_ok_inv {α β : Type} {f : α → β} {p : ParserM α}
    {input : Bytes} {pos : Nat} {v : β} {q : Nat}
    (h : pmap f p input pos = .ok v q) :
    ∃ a, p input pos = .ok a q ∧ v = f a := by
  unfold pmap at h
  cases hp : p input pos with
  | ok a r => rw [hp] at h; cases h; exact ⟨a, rfl, rfl⟩
  | fail => rw [hp] at h; cases h
  | panic => rw [hp] at h; cases h

theorem pconvert_ok_inv {α β : Type} {f : α → Option β} {p : ParserM α}
    {input : Bytes} {pos : Nat} {v : β} {q : Nat}
    (h : pconvert f p input pos = .ok v q) :
    ∃ a, p input pos = .ok a q ∧ f a = some v := by
  unfold pconvert at h
  cases hp : p input pos with
  | ok a r =>
    rw [hp] at h
    simp only [] at h
    cases hf : f a with
    | some b => rw [hf] at h; cases h; exact ⟨a, rfl, hf⟩
    | none => rw [hf] at h; cases h
  | fail => rw [hp] at h; cases h
  | panic => rw [hp] at h; cases h

theorem pseqR_ok_inv {α β : Type} {a : ParserM α} {b : ParserM β}
    {input : Bytes} {pos : Nat} {v : β} {n : Nat}
    (h : pseqR a b input pos = .ok v n) :
    ∃ u q, a input pos = .ok u q ∧ b input q = .ok v n := by
  unfold pseqR at h
  cases ha : a input pos with
  | ok u q => rw [ha] at h; exact ⟨u, q, rfl, h⟩
  | fail => rw [ha] at h; cases h
  | panic => rw [ha] at h; cases h

theorem pseqL_ok_inv {α β : Type} {a : ParserM α} {b : ParserM β}
    {input : Bytes} {pos : Nat} {v : α} {n : Nat}
    (h : pseqL a b input pos = .ok v n) :
    ∃ q w, a input pos = .ok v q ∧ b input q = .ok w n := by
  unfold pseqL at h
  cases ha : a input pos with
  | ok u q =>
    rw [ha] at h
    simp only [] at h
    cases hb : b input q with
    | ok w r => rw [hb] at h; cases h; exact ⟨q, w, rfl, hb⟩
    | fail => rw [hb] at h; cases h
    | panic => rw [hb] at h; cases h
  | fail => rw [ha] at h; cases h
  | panic => rw [ha] at h; cases h

/-- Any value produced by one of the four number parsers is a `Number`. -/
theorem number_ok_shape {input : Bytes} {pos : Nat} {v : LispVal} {n : Nat}
    (h : number input pos = .ok v n) : ∃ k, v = .Number k := by
  unfold number at h
  have hmap : ∀ (g : Bytes → Option Int) (a : Bytes) (w : LispVal),
      ((g a).map (fun m => LispVal.Number m) = some w) → ∃ k, w = .Number k := by
    intro g a w hw
    cases hg : g a with
    | some m => rw [hg] at hw; simp at hw; exact ⟨m, hw.symm⟩
    | none => rw [hg] at hw; simp at hw
  rcases palt_ok_inv h with h1 | ⟨_, h1⟩
  · obtain ⟨a, _, hf⟩ := pmapU_ok_inv h1
    exact hmap (fun x => from_str_radix (x.drop 2) 8) a v hf
  rcases palt_ok_inv h1 with h2 | ⟨_, h2⟩
  · obtain ⟨a, _, hf⟩ := pmapU_ok_inv h2
    exact hmap (fun x => from_str_radix (x.drop 2) 2) a v hf
  rcases palt_ok_inv h2 with h3 | ⟨_, h3⟩
  · obtain ⟨a, _, hf⟩ := pmapU_ok_inv h3
    exact hmap (fun x => from_str_radix (x.drop 2) 16) a v hf
  · obtain ⟨a, _, hf⟩ := pmapU_ok_inv h3
    by_cases hu : validUtf8 a
    · rw [if_pos hu] at hf
      exact hmap (fun x => from_str_radix x 10) a v hf
    · rw [if_neg hu] at hf
      cases hf

/-- Any value produced by `atom` is a `Bool` or an `Atom`. -/
theorem atom_ok_shape {input : Bytes} {pos : Nat} {v : LispVal} {n : Nat}
    (h : atom input pos = .ok v n) : (∃ b, v = .Bool b) ∨ (∃ s, v = .Atom s) := by
  unfold atom at h
  obtain ⟨a, _, hf⟩ := pmapU_ok_inv h
  by_cases h1 : a = [35, 116]
  · rw [if_pos h1] at hf
    cases hf
    exact Or.inl ⟨true, rfl⟩
  · rw [if_neg h1] at hf
    by_cases h2 : a = [35, 102]
    · rw [if_pos h2] at hf
      cases hf
      exact Or.inl ⟨false, rfl⟩
    · rw [if_neg h2] at hf
      by_cases h3 : validUtf8 a
      · rw [if_pos h3] at hf
        cases hf
        exact Or.inr ⟨a, rfl⟩
      · rw [if_neg h3] at hf
        cases hf

/-- Any value produced by `string` is a `String`. -/
theorem string_ok_shape {input : Bytes} {pos : Nat} {v : LispVal} {n : Nat}
    (h : string input pos = .ok v n) : ∃ s, v = .String s := by
  unfold string at h
  obtain ⟨a, _, ha⟩ := pmap_ok_inv h
  exact ⟨a, ha⟩

/-- Every value `parse_expr` produces is a leaf: a `Number`, `Bool`,
`Atom` or `String`; in particular it contains no `DottedList`. -/
theorem parse_expr_ok_leaf {input : Bytes} {pos : Nat} {v : LispVal} {n : Nat}
    (h : parse_expr input pos = .ok v n) : noDotted v = true := by
  unfold parse_expr at h
  rcases palt_ok_inv h with h1 | ⟨_, h1⟩
  · obtain ⟨k, rfl⟩ := number_ok_shape h1
    rfl
  rcases palt_ok_inv h1 with h2 | ⟨_, h2⟩
  · rcases atom_ok_shape h2 with ⟨b, rfl⟩ | ⟨s, rfl⟩ <;> rfl
  · obtain ⟨s, rfl⟩ := string_ok_shape h2
    rfl

theorem noDottedList_of_all {vs : List LispVal}
    (h : ∀ v ∈ vs, noDotted v = true) : noDottedList vs = true := by
  induction vs with
  | nil => rfl
  | cons v vs ih =>
    show (noDotted v && noDottedList vs) = true
    rw [h v (by simp), ih (fun x hx => h x (by simp [hx]))]
    rfl

/-- Every element the list loop collects comes from `parse_expr`. -/
theorem listCore_elems_leaf :
    ∀ (fuel : Nat) (input : Bytes) (pos : Nat) (vs : List LispVal) (r : Nat),
      listCore parse_expr whitespace fuel input pos = .ok vs r →
      ∀ v ∈ vs, noDotted v = true := by
  intro fuel
  induction fuel with
  | zero =>
    intro input pos vs r h
    simp only [listCore] at h
    cases h
    intro v hv
    cases hv
  | succ fuel ih =>
    intro input pos vs r h
    simp only [listCore] at h
    cases hsep : whitespace input pos with
    | panic => rw [hsep] at h; cases h
    | fail =>
      rw [hsep] at h
      cases h
      intro v hv
      cases hv
    | ok u q =>
      rw [hsep] at h
      simp only [] at h
      cases hitem : parse_expr input q with
      | panic => rw [hitem] at h; cases h
      | fail =>
        rw [hitem] at h
        cases h
        intro v hv
        cases hv
      | ok a r2 =>
        rw [hitem] at h
        simp only [] at h
        by_cases hr2 : r2 ≤ pos
        · rw [if_pos hr2] at h
          cases h
          intro v hv
          rcases List.mem_cons.mp hv with rfl | hmem
          · exact parse_expr_ok_leaf hitem
          · cases hmem
        · rw [if_neg hr2] at h
          cases hrec : listCore parse_expr whitespace fuel input r2 with
          | ok vs2 s =>
            rw [hrec] at h
            cases h
            intro v hv
            rcases List.mem_cons.mp hv with rfl | hmem
            · exact parse_expr_ok_leaf hitem
            · exact ih input r2 vs2 _ hrec v hmem
          | fail => rw [hrec] at h; cases h
          | panic => rw [hrec] at h; cases h

/-- Every element `plist parse_expr whitespace` returns is a leaf. -/
theorem plist_elems_leaf {input : Bytes} {pos : Nat} {vs : List LispVal} {r : Nat}
    (h : plist parse_expr whitespace input pos = .ok vs r) :
    ∀ v ∈ vs, noDotted v = true := by
  unfold plist at h
  cases hitem : parse_expr input pos with
  | panic => rw [hitem] at h; cases h
  | fail =>
    rw [hitem] at h
    cases h
    intro v hv
    cases hv
  | ok a q =>
    rw [hitem] at h
    simp only [] at h
    by_cases hq : q ≤ pos
    · rw [if_pos hq] at h
      cases h
      intro v hv
      rcases List.mem_cons.mp hv with rfl | hmem
      · exact parse_expr_ok_leaf hitem
      · cases hmem
    · rw [if_neg hq] at h
      cases hrec : listCore parse_expr whitespace (input.length + 1 - q) input q with
      | ok vs2 s =>
        rw [hrec] at h
        cases h
        intro v hv
        rcases List.mem_cons.mp hv with rfl | hmem
        · exact parse_expr_ok_leaf hitem
        · exact listCore_elems_leaf _ input q vs2 _ hrec v hmem
      | fail => rw [hrec] at h; cases h
      | panic => rw [hrec] at h; cases h

/-! ### Panic-freedom of the atom parser -/

theorem pseqPair_fail_of_left {α β : Type} {a : ParserM α} {b : ParserM β}
    {input : Bytes} {pos : Nat} (h : a input pos = .fail) :
    pseqPair a b input pos = .fail := by
  unfold pseqPair
  rw [h]

theorem pseqPair_fail_of_right {α β : Type} {a : ParserM α} {b : ParserM β}
    {input : Bytes} {pos : Nat} {v : α} {q : Nat}
    (ha : a input pos = .ok v q) (hb : b input q = .fail) :
    pseqPair a b input pos = .fail := by
  unfold pseqPair
  rw [ha]
  simp only []
  rw [hb]

/-- The matched bytes of the atom grammar are all in the letter, digit or
symbol classes, hence ASCII, so the conversion closure of `atom` always
yields a value: `atom` can only succeed or fail, never panic. -/
theorem atom_run_total (input : Bytes) (pos : Nat) :
    atom input pos = .fail ∨ ∃ v n, atom input pos = .ok v n := by
  have hatom : atom = pmapU
      (fun matched =>
        if matched = [35, 116] then some (LispVal.Bool true)
        else if matched = [35, 102] then some (LispVal.Bool false)
        else if validUtf8 matched then some (LispVal.Atom matched) else none)
      (pcollect (pseqPair (palt letter (symbol ()))
        (prepeat 0 (palt letter (palt digit (symbol ())))))) := rfl
  cases hF : palt letter (symbol ()) input pos with
  | panic =>
    rw [atom_first_matcher] at hF
    exact absurd hF satisfy_no_panic
  | fail =>
    left
    rw [hatom]
    exact pmapU_pcollect_fail (pseqPair_fail_of_left hF)
  | ok c q =>
    have hF2 := hF
    rw [atom_first_matcher] at hF2
    obtain ⟨hget, hc, rfl⟩ := satisfy_ok_inv hF2
    cases hR : prepeat 0 (palt letter (palt digit (symbol ()))) input (pos + 1) with
    | panic =>
      rw [atom_rest_matcher] at hR
      exact absurd hR (prepeat_no_panic (fun i j => satisfy_no_panic) 0 input (pos + 1))
    | fail =>
      left
      rw [hatom]
      exact pmapU_pcollect_fail (pseqPair_fail_of_right hF hR)
    | ok cs r =>
      have hR2 := hR
      rw [atom_rest_matcher] at hR2
      obtain ⟨hr, hvs, hall⟩ := prepeat_satisfy_sound hR2
      have hpair := pseqPair_ok hF hR
      have hposlt : pos < input.length := by
        by_contra hcon
        rw [List.getElem?_eq_none (by omega)] at hget
        cases hget
      have hslice : (input.drop pos).take (r - pos) = c :: cs := by
        rw [hr, List.drop_eq_getElem_cons hposlt]
        rw [show pos + 1 + cs.length - pos = cs.length + 1 by omega]
        rw [List.take_succ_cons]
        have hcv : input[pos] = c := by
          have hg2 := List.getElem?_eq_getElem hposlt
          rw [hg2] at hget
          exact Option.some.inj hget
        rw [hcv, ← hvs]
      have hcol : pcollect (pseqPair (palt letter (symbol ()))
          (prepeat 0 (palt letter (palt digit (symbol ())))))
          input pos = .ok (c :: cs) r := by
        unfold pcollect
        rw [hpair]
        simp only []
        rw [hslice]
      have hascii : validUtf8 (c :: cs) = true := by
        apply ascii_validUtf8
        intro b hb
        rcases List.mem_cons.mp hb with rfl | hmem
        · exact atomFirst_ascii hc
        · exact atomRest_ascii (hall b hmem)
      have hfval : ∃ w, (if c :: cs = [35, 116] then some (LispVal.Bool true)
          else if c :: cs = [35, 102] then some (LispVal.Bool false)
          else if validUtf8 (c :: cs) then some (LispVal.Atom (c :: cs)) else none) =
          some w := by
        by_cases h1 : c :: cs = [35, 116]
        · exact ⟨.Bool true, by rw [if_pos h1]⟩
        · by_cases h2 : c :: cs = [35, 102]
          · exact ⟨.Bool false, by rw [if_neg h1, if_pos h2]⟩
          · exact ⟨.Atom (c :: cs), by rw [if_neg h1, if_neg h2, hascii]; rfl⟩
      obtain ⟨w, hw⟩ := hfval
      right
      refine ⟨w, r, ?_⟩
      rw [hatom]
      unfold pmapU
      rw [hcol]
      simp only []
      rw [hw]

/-! ### Case-insensitivity of the hex digit conversion -/

theorem digitVal_toLowerByte (b : Nat) : digitVal (toLowerByte b) = digitVal b := by
  unfold toLowerByte
  cases hcond : (65 ≤ b && b ≤ 90 : Bool) with
  | false => simp [hcond]
  | true =>
    simp only [hcond, if_true]
    simp only [Bool.and_eq_true, decide_eq_true_eq] at hcond
    unfold digitVal
    have h1 : (48 ≤ b + 32 && b + 32 ≤ 57 : Bool) = false := by
      simp only [Bool.and_eq_false_iff, decide_eq_false_iff_not]
      omega
    have h2 : (97 ≤ b + 32 && b + 32 ≤ 122 : Bool) = true := by
      simp only [Bool.and_eq_true, decide_eq_true_eq]
      omega
    have h3 : (48 ≤ b && b ≤ 57 : Bool) = false := by
      simp only [Bool.and_eq_false_iff, decide_eq_false_iff_not]
      omega
    have h4 : (97 ≤ b && b ≤ 122 : Bool) = false := by
      simp only [Bool.and_eq_false_iff, decide_eq_false_iff_not]
      omega
    have h5 : (65 ≤ b && b ≤ 90 : Bool) = true := by
      simp only [Bool.and_eq_true, decide_eq_true_eq]
      omega
    simp only [h1, h2, h3, h4, h5, if_true, if_false, Bool.false_eq_true]
    congr 1

theorem fromStrRadixAux_toLower :
    ∀ (ds : Bytes) (acc : Nat),
      fromStrRadixAux 16 (toLowerBytes ds) acc = fromStrRadixAux 16 ds acc := by
  intro ds
  induction ds with
  | nil => intro acc; rfl
  | cons c cs ih =>
    intro acc
    show fromStrRadixAux 16 (toLowerByte c :: toLowerBytes cs) acc = _
    simp only [fromStrRadixAux]
    rw [digitVal_toLowerByte]
    cases hd : digitVal c with
    | none => rfl
    | some d =>
      by_cases hlt : d < 16
      · simp only [hlt, if_true]
        by_cases hmax : acc * 16 + d ≤ i64Max
        · simp only [hmax, if_pos]
          exact ih _
        · simp [hmax]
      · simp [hlt]

theorem from_str_radix_toLower (ds : Bytes) :
    from_str_radix (toLowerBytes ds) 16 = from_str_radix ds 16 := by
  unfold from_str_radix
  by_cases h : ds = []
  · subst h
    rfl
  · rw [if_neg (by simpa [toLowerBytes] using h), if_neg h, fromStrRadixAux_toLower]

/-- The discarded `to_lowercase` has no observable effect: `hex_number`
coincides with the variant that actually lowercases before converting,
on every input and position. -/
theorem hex_number_norm_agree (input : Bytes) (pos : Nat) :
    hex_number input pos = hex_number_with_normalization input pos := by
  unfold hex_number hex_number_with_normalization pmapU
  cases h : pcollect (pseqR (pdiscard (pseqR (sym 35) (sym 120)))
      (prepeat 1 (one_of hexChars))) input pos with
  | ok a q =>
    simp only []
    rw [from_str_radix_toLower]
  | fail => rfl
  | panic => rfl

theorem toLowerByte_mem_hex {b : Nat} (h : b ∈ hexChars) : toLowerByte b ∈ hexChars := by
  simp only [hexChars, List.mem_cons, List.not_mem_nil, or_false] at h
  rcases h with rfl | rfl | rfl | rfl | rfl | rfl | rfl | rfl | rfl | rfl | rfl |
    rfl | rfl | rfl | rfl | rfl | rfl | rfl | rfl | rfl | rfl | rfl <;> decide

/-! ### Helper facts used by the claim theorems -/

theorem strEnc_of_plain {cs : Bytes} (h : ∀ b ∈ cs, b ≠ 92 ∧ b ≠ 34) :
    StrEnc cs cs := by
  induction cs with
  | nil => exact StrEnc.nil
  | cons b bs ih =>
    exact StrEnc.plain b bs bs (h b (by simp)).1 (h b (by simp)).2
      (ih (fun x hx => h x (by simp [hx])))

theorem strEnc_plain_append {cs1 e o : Bytes} (h : ∀ b ∈ cs1, b ≠ 92 ∧ b ≠ 34)
    (henc : StrEnc e o) : StrEnc (cs1 ++ e) (cs1 ++ o) := by
  induction cs1 with
  | nil => simpa using henc
  | cons b bs ih =>
    exact StrEnc.plain b (bs ++ e) (bs ++ o) (h b (by simp)).1 (h b (by simp)).2
      (ih (fun x hx => h x (by simp [hx])))

theorem empty_post_digit : ∀ b : Nat, ([] : Bytes)[0]? = some b →
    digitChars.contains b = false := by
  intro b hb
  simp at hb

theorem empty_post_bin : ∀ b : Nat, ([] : Bytes)[0]? = some b →
    binChars.contains b = false := by
  intro b hb
  simp at hb

theorem empty_post_oct : ∀ b : Nat, ([] : Bytes)[0]? = some b →
    octChars.contains b = false := by
  intro b hb
  simp at hb

theorem empty_post_hex : ∀ b : Nat, ([] : Bytes)[0]? = some b →
    hexChars.contains b = false := by
  intro b hb
  simp at hb

theorem digit_valid_10 {d : Bytes} (hdig : ∀ b ∈ d, b ∈ digitChars) :
    ∀ c ∈ d, ∃ v, digitVal c = some v ∧ v < 10 := by
  intro c hc
  obtain ⟨h1, h2, _⟩ := digitChars_facts (hdig c hc)
  exact ⟨c - 48, h1, by omega⟩

/-! ### The claims -/

/-- C1, counterexample to the claim as stated: the radix-prefixed literal
`#x8000000000000000` (value 2^63, one past `i64::MAX`) does not parse to
`Number(2^63)`; the conversion's `unwrap` panics inside the number parser,
so the expression entry point aborts instead of returning that value. -/
theorem C1_radix_overflow_counterexample :
    number [35, 120, 56, 48, 48, 48, 48, 48, 48, 48, 48, 48, 48, 48, 48, 48, 48, 48] 0 =
      PResult.panic ∧
    read_expr [35, 120, 56, 48, 48, 48, 48, 48, 48, 48, 48, 48, 48, 48, 48, 48, 48, 48] ≠
      some (LispVal.Number 9223372036854775808) := by
  refine ⟨rfl, ?_⟩
  intro h
  rw [show read_expr [35, 120, 56, 48, 48, 48, 48, 48, 48, 48, 48, 48, 48, 48, 48, 48,
    48, 48] = none from rfl] at h
  cases h

/-- C1 (amended): for every decimal digit string whose value fits in a
signed 64-bit integer, parsing yields `Number` of the base-10 value; and
every radix-prefixed literal (`#b` + binary digits, `#o` + octal digits,
`#x` + hex digits) *whose value also fits in a signed 64-bit integer*
parses to the `Number` of the digits interpreted in base 2, 8 and 16
respectively.  (The fits-in-64-bit condition on the radix-prefixed forms
is the amendment: without it the conversion panics, see the
counterexample.) -/
theorem C1_literal_values :
    (∀ d : Bytes, d ≠ [] → (∀ b ∈ d, b ∈ digitChars) → baseVal 10 d ≤ i64Max →
      read_expr d = some (.Number (Int.ofNat (baseVal 10 d)))) ∧
    (∀ d : Bytes, d ≠ [] → (∀ b ∈ d, b ∈ binChars) → baseVal 2 d ≤ i64Max →
      read_expr ([35, 98] ++ d) = some (.Number (Int.ofNat (baseVal 2 d)))) ∧
    (∀ d : Bytes, d ≠ [] → (∀ b ∈ d, b ∈ octChars) → baseVal 8 d ≤ i64Max →
      read_expr ([35, 111] ++ d) = some (.Number (Int.ofNat (baseVal 8 d)))) ∧
    (∀ d : Bytes, d ≠ [] → (∀ b ∈ d, b ∈ hexChars) → baseVal 16 d ≤ i64Max →
      read_expr ([35, 120] ++ d) = some (.Number (Int.ofNat (baseVal 16 d)))) := by
  refine ⟨?_, ?_, ?_, ?_⟩
  · intro d hne hdig hle
    apply read_expr_of_ok
    have h := @parse_expr_decimal_run [] d [] hne hdig empty_post_digit
    rw [from_str_radix_some (by omega) hne (digit_valid_10 hdig) hle] at h
    simpa using h
  · intro d hne hmem hle
    apply read_expr_of_ok
    have h := @parse_expr_binary_run [] d [] hne hmem empty_post_bin
    rw [from_str_radix_some (by omega) hne
      (fun c hc => (binChars_facts (hmem c hc)).1) hle] at h
    simpa using h
  · intro d hne hmem hle
    apply read_expr_of_ok
    have h := @parse_expr_octal_run [] d [] hne hmem empty_post_oct
    rw [from_str_radix_some (by omega) hne
      (fun c hc => (octChars_facts (hmem c hc)).1) hle] at h
    simpa using h
  · intro d hne hmem hle
    apply read_expr_of_ok
    have h := @parse_expr_hex_run [] d [] hne hmem empty_post_hex
    rw [from_str_radix_some (by omega) hne
      (fun c hc => (hexChars_facts (hmem c hc)).1) hle] at h
    simpa using h

/-- C1, witness: the repository's own test literals `123`, `#b11`,
`#o321`, `#xFF`. -/
theorem C1_literal_values_witness :
    read_expr [49, 50, 51] = some (.Number 123) ∧
    read_expr [35, 98, 49, 49] = some (.Number 3) ∧
    read_expr [35, 111, 51, 50, 49] = some (.Number 209) ∧
    read_expr [35, 120, 70, 70] = some (.Number 255) :=
  ⟨C1_literal_values.1 [49, 50, 51] (by decide) (by decide) (by decide),
   C1_literal_values.2.1 [49, 49] (by decide) (by decide) (by decide),
   C1_literal_values.2.2.1 [51, 50, 49] (by decide) (by decide) (by decide),
   C1_literal_values.2.2.2 [70, 70] (by decide) (by decide) (by decide)⟩

/-- C2, counterexample to the claim as stated: the 19-digit decimal run
`9999999999999999999` exceeds `i64::MAX`; `decimal_number` panics (the
`unwrap` in its `.map` closure) and does not return a failed parse
result. -/
theorem C2_overflow_panics_counterexample :
    decimal_number [57, 57, 57, 57, 57, 57, 57, 57, 57, 57, 57, 57, 57, 57, 57, 57,
      57, 57, 57] 0 = PResult.panic ∧
    decimal_number [57, 57, 57, 57, 57, 57, 57, 57, 57, 57, 57, 57, 57, 57, 57, 57,
      57, 57, 57] 0 ≠ PResult.fail := by
  have h : decimal_number [57, 57, 57, 57, 57, 57, 57, 57, 57, 57, 57, 57, 57, 57,
      57, 57, 57, 57, 57] 0 = PResult.panic := rfl
  refine ⟨h, ?_⟩
  rw [h]
  intro hc
  cases hc

/-- C2 (amended): every digit run denoting a value outside the signed
64-bit range makes `decimal_number` panic inside the parser (not a failed
result — this is the corrected part); grammar failures are surfaced as
failed results, and the two entry points are where a failed result becomes
a fatal abort. -/
theorem C2_failure_policy :
    (∀ d : Bytes, d ≠ [] → (∀ b ∈ d, b ∈ digitChars) → i64Max < baseVal 10 d →
      decimal_number d 0 = PResult.panic) ∧
    (∀ input : Bytes, parse_expr input 0 = .fail → read_expr input = none) ∧
    (∀ input : Bytes, parse_list input 0 = .fail → read_list input = none) := by
  refine ⟨?_, fun input h => read_expr_of_fail h, fun input h => read_list_of_fail h⟩
  intro d hne hdig hgt
  have h := @decimal_number_run [] d [] hne hdig empty_post_digit
  rw [from_str_radix_overflow (by omega) (digit_valid_10 hdig) hgt] at h
  simpa using h

/-- C2, witness: the overflowing literal panics; a stray `(` makes the
expression entry point abort. -/
theorem C2_failure_policy_witness :
    decimal_number [57, 57, 57, 57, 57, 57, 57, 57, 57, 57, 57, 57, 57, 57, 57, 57,
      57, 57, 57] 0 = PResult.panic ∧
    read_expr [40] = none :=
  ⟨C2_failure_policy.1 [57, 57, 57, 57, 57, 57, 57, 57, 57, 57, 57, 57, 57, 57, 57,
      57, 57, 57, 57] (by decide) (by decide) (by decide),
   C2_failure_policy.2.1 [40] rfl⟩

/-- C3: the exact inputs `#t` and `#f` parse (via the expression parser)
to `Bool(true)` and `Bool(false)`, not to `Atom`; every other token of the
atom grammar is parsed by `atom` to an `Atom` holding exactly its literal
text. -/
theorem C3_bool_atom :
    read_expr [35, 116] = some (.Bool true) ∧
    read_expr [35, 102] = some (.Bool false) ∧
    (∀ (c : Nat) (cs : Bytes), atomFirst c = true → (∀ b ∈ cs, atomRest b = true) →
      c :: cs ≠ [35, 116] → c :: cs ≠ [35, 102] →
      atom (c :: cs) 0 = .ok (.Atom (c :: cs)) (c :: cs).length) := by
  refine ⟨rfl, rfl, ?_⟩
  intro c cs hc hcs hnt hnf
  have h := @atom_run [] [] c cs hc hcs
    (fun b hb => by simp at hb)
  rw [if_neg hnt, if_neg hnf] at h
  simpa using h

/-- C3, witness: the token `symbol` parses to an `Atom` with its literal
text. -/
theorem C3_bool_atom_witness :
    atom [115, 121, 109, 98, 111, 108] 0 =
      .ok (.Atom [115, 121, 109, 98, 111, 108]) 6 :=
  C3_bool_atom.2.2 115 [121, 109, 98, 111, 108] (by decide) (by decide)
    (by decide) (by decide)

/-- C4, counterexample to the claim as stated: the string literal
`"\xFF"` (a quote, the byte 255, a quote) matches the string grammar with
no backslash sequences, but byte 255 is not valid UTF-8, so the
`String::from_utf8` conversion fails and the parse fails instead of
yielding `String([255])`. -/
theorem C4_invalid_utf8_counterexample :
    string [34, 255, 34] 0 = PResult.fail ∧
    string [34, 255, 34] 0 ≠ PResult.ok (.String [255]) 3 ∧
    read_expr [34, 255, 34] = none := by
  have h : string [34, 255, 34] 0 = PResult.fail := rfl
  refine ⟨h, ?_, rfl⟩
  rw [h]
  intro hc
  cases hc

/-- C4 (amended): a string literal with no backslash sequences parses to
`String` holding exactly the bytes between the quotes, and a literal
containing a backslash-quote sequence parses with the escape resolved to a
single literal quote — *provided the resulting content bytes are valid
UTF-8* (invalid encoding is a parse failure; this proviso is the
amendment, see the counterexample).  Only the quote character is escapable
in this grammar. -/
theorem C4_string_content :
    (∀ cs : Bytes, (∀ b ∈ cs, b ≠ 92 ∧ b ≠ 34) → validUtf8 cs = true →
      read_expr ([34] ++ cs ++ [34]) = some (.String cs)) ∧
    (∀ cs1 cs2 : Bytes, (∀ b ∈ cs1, b ≠ 92 ∧ b ≠ 34) → (∀ b ∈ cs2, b ≠ 92 ∧ b ≠ 34) →
      validUtf8 (cs1 ++ 34 :: cs2) = true →
      read_expr ([34] ++ cs1 ++ [92, 34] ++ cs2 ++ [34]) =
        some (.String (cs1 ++ 34 :: cs2))) := by
  constructor
  · intro cs hplain hv
    apply read_expr_of_ok
    have hin : [34] ++ cs ++ [34] = [] ++ (34 :: (cs ++ (34 :: []))) := by simp
    rw [hin]
    rw [parse_expr_at_quote (by
      rw [← hin]
      simp)]
    have h := @string_run [] [] cs cs (strEnc_of_plain hplain)
    rw [hv] at h
    simp only [if_true] at h
    simpa using h
  · intro cs1 cs2 h1 h2 hv
    apply read_expr_of_ok
    have henc : StrEnc (cs1 ++ (92 :: 34 :: cs2)) (cs1 ++ (34 :: cs2)) :=
      strEnc_plain_append h1 (StrEnc.esc cs2 cs2 (strEnc_of_plain h2))
    have hin : [34] ++ cs1 ++ [92, 34] ++ cs2 ++ [34] =
        [] ++ (34 :: ((cs1 ++ (92 :: 34 :: cs2)) ++ (34 :: []))) := by simp
    rw [hin]
    rw [parse_expr_at_quote (by
      rw [← hin]
      simp)]
    have h := @string_run [] [] (cs1 ++ (92 :: 34 :: cs2)) (cs1 ++ (34 :: cs2)) henc
    rw [hv] at h
    simp only [if_true] at h
    simpa using h

/-- C4, witness: `"123"` and `"1\"23"` as in the repository's tests. -/
theorem C4_string_content_witness :
    read_expr [34, 49, 50, 51, 34] = some (.String [49, 50, 51]) ∧
    read_expr [34, 49, 92, 34, 50, 51, 34] = some (.String [49, 34, 50, 51]) :=
  ⟨C4_string_content.1 [49, 50, 51] (by decide) (by decide),
   C4_string_content.2 [49] [50, 51] (by decide) (by decide) (by decide)⟩

/-- C5: `read_list` on a parenthesized, whitespace-separated sequence of
number literals yields a `List` whose elements appear in exactly the input
order; heterogeneous elements are preserved (witnessed on
`(1 2 "Hello World")`); the empty input `()` yields `List([])`; and an
input missing its closing parenthesis fails. -/
theorem C5_list_order :
    (∀ ds : List Bytes, (∀ t ∈ ds, goodTok t) →
      read_list ((40 :: joinToks ds) ++ [41]) =
        some (.List (ds.map fun t => .Number (Int.ofNat (baseVal 10 t))))) ∧
    read_list [40, 49, 32, 50, 32, 34, 72, 101, 108, 108, 111, 32, 87, 111, 114,
      108, 100, 34, 41] =
      some (.List [.Number 1, .Number 2,
        .String [72, 101, 108, 108, 111, 32, 87, 111, 114, 108, 100]]) ∧
    read_list [40, 41] = some (.List []) ∧
    (∀ ds : List Bytes, (∀ t ∈ ds, goodTok t) →
      read_list (40 :: joinToks ds) = none) := by
  refine ⟨?_, rfl, rfl, ?_⟩
  · intro ds hds
    exact read_list_of_ok (parse_list_digit_tokens hds)
  · intro ds hds
    exact read_list_of_fail (parse_list_digit_tokens_noclose hds)

/-- C5, witness: `(1 2 3)` parses to the ordered list of its numbers, and
`(1 2 3` without the closing parenthesis fails. -/
theorem C5_list_order_witness :
    read_list [40, 49, 32, 50, 32, 51, 41] =
      some (.List [.Number 1, .Number 2, .Number 3]) ∧
    read_list [40, 49, 32, 50, 32, 51] = none :=
  ⟨C5_list_order.1 [[49], [50], [51]] (by decide),
   C5_list_order.2.2.2 [[49], [50], [51]] (by decide)⟩

/-- C6: the expression parser's alternatives are exactly number, atom/bool
and string; a parenthesized form is not an expression alternative, so the
expression parser fails on every input whose first byte is `(`, and a
nested `(...)` as a list element makes the list parse fail (shown on
`((1) 2)`). -/
theorem C6_no_nested_list :
    parse_expr = palt number (palt atom string) ∧
    (∀ input : Bytes, input[0]? = some 40 → parse_expr input 0 = .fail) ∧
    parse_list [40, 40, 49, 41, 32, 50, 41] 0 = .fail ∧
    read_list [40, 40, 49, 41, 32, 50, 41] = none := by
  refine ⟨rfl, ?_, rfl, rfl⟩
  intro input h40
  apply parse_expr_fail
  intro b hb
  rw [h40] at hb
  cases hb
  decide

/-- C6, witness: the expression parser fails on `(1)`. -/
theorem C6_no_nested_list_witness : parse_expr [40, 49, 41] 0 = .fail :=
  C6_no_nested_list.2.1 [40, 49, 41] rfl

/-- C7: whenever a prefix of the input matches an expression, `read_expr`
succeeds with the value parsed from that prefix; trailing unconsumed bytes
are ignored (pom's `parse` drops the final cursor position). -/
theorem C7_entry_prefix :
    ∀ (input : Bytes) (v : LispVal) (n : Nat),
      parse_expr input 0 = .ok v n → read_expr input = some v :=
  fun _ _ _ h => read_expr_of_ok h

/-- C7, witness: `123abc` has the expression prefix `123`; `read_expr`
returns `Number 123` and ignores the trailing `abc`. -/
theorem C7_entry_prefix_witness :
    read_expr [49, 50, 51, 97, 98, 99] = some (.Number 123) :=
  C7_entry_prefix [49, 50, 51, 97, 98, 99] (.Number 123) 3 rfl

/-- C8: parsing `#x` + hex digits yields the same result as parsing `#x` +
the lowercased digits; moreover `hex_number` agrees everywhere with the
variant that actually uses the lowercased string, so the discarded
`to_lowercase` call has no observable effect. -/
theorem C8_hex_case_insensitive :
    (∀ s : Bytes, (∀ b ∈ s, b ∈ hexChars) →
      parse_expr ([35, 120] ++ s) 0 = parse_expr ([35, 120] ++ toLowerBytes s) 0) ∧
    (∀ (input : Bytes) (pos : Nat),
      hex_number input pos = hex_number_with_normalization input pos) := by
  refine ⟨?_, hex_number_norm_agree⟩
  intro s hmem
  cases hs : s with
  | nil => rfl
  | cons c cs =>
    rw [← hs]
    have hne : s ≠ [] := by rw [hs]; simp
    have hne2 : toLowerBytes s ≠ [] := by
      rw [hs]
      simp [toLowerBytes]
    have hmem2 : ∀ b ∈ toLowerBytes s, b ∈ hexChars := by
      intro b hb
      obtain ⟨a, ha, rfl⟩ := List.mem_map.mp hb
      exact toLowerByte_mem_hex (hmem a ha)
    have h1 := @parse_expr_hex_run [] s [] hne hmem empty_post_hex
    have h2 := @parse_expr_hex_run [] (toLowerBytes s) [] hne2 hmem2 empty_post_hex
    rw [from_str_radix_toLower] at h2
    rw [show (toLowerBytes s).length = s.length from List.length_map s toLowerByte] at h2
    simp only [List.nil_append, List.append_nil, List.length_nil] at h1 h2
    rw [show ([35, 120] ++ s : Bytes) = 35 :: 120 :: s by rfl,
      show ([35, 120] ++ toLowerBytes s : Bytes) = 35 :: 120 :: toLowerBytes s by rfl,
      h1, h2]

/-- C8, witness: `#xFF` and `#xff` parse identically. -/
theorem C8_hex_case_insensitive_witness :
    parse_expr [35, 120, 70, 70] 0 = parse_expr [35, 120, 102, 102] 0 :=
  C8_hex_case_insensitive.1 [70, 70] (by decide)

/-- C9: no parse result ever contains a `DottedList` node at any depth:
every value out of `read_expr` is a leaf literal and every element of a
`read_list` result is a leaf literal, so the `DottedList` variant is never
produced. -/
theorem C9_no_dotted_list :
    (∀ (input : Bytes) (v : LispVal), read_expr input = some v → noDotted v = true) ∧
    (∀ (input : Bytes) (v : LispVal), read_list input = some v → noDotted v = true) := by
  constructor
  · intro input v h
    unfold read_expr at h
    cases hp : parse_expr input 0 with
    | ok w n =>
      rw [hp] at h
      simp only [] at h
      cases h
      exact parse_expr_ok_leaf hp
    | fail => rw [hp] at h; cases h
    | panic => rw [hp] at h; cases h
  · intro input v h
    unfold read_list at h
    cases hp : parse_list input 0 with
    | ok vs n =>
      rw [hp] at h
      simp only [] at h
      cases h
      unfold parse_list at hp
      obtain ⟨q, w, hleft, _⟩ := pseqL_ok_inv hp
      obtain ⟨u, q2, _, hplist⟩ := pseqR_ok_inv hleft
      show noDottedList vs = true
      exact noDottedList_of_all (plist_elems_leaf hplist)
    | fail => rw [hp] at h; cases h
    | panic => rw [hp] at h; cases h

/-- C9, witness: the parse of `(1)` contains no dotted list. -/
theorem C9_no_dotted_list_witness : noDotted (.List [.Number 1]) = true :=
  C9_no_dotted_list.2 [40, 49, 41] (.List [.Number 1]) rfl

/-- C10: the unchecked UTF-8 conversion in `atom` never fails: on every
input and position the atom parser either fails or succeeds — the panic
branch of the `unwrap` is unreachable, because every byte matched by the
atom grammar is ASCII and hence valid UTF-8. -/
theorem C10_atom_utf8_safe :
    ∀ (input : Bytes) (pos : Nat),
      atom input pos = .fail ∨ ∃ v n, atom input pos = .ok v n :=
  atom_run_total

end RustyLisp
